import Mathlib

/-!
Verification of the digital-twin communication codec core
(`src/Codificacion_Hamming.py`, `src/Codificacion_Huffman.py`).

The Python source is shallowly embedded: numpy integer arrays become
`List Nat` (with explicit `% 2` where the source reduces mod 2), bit
strings become `List Bool` for the Huffman coder and `List Nat` for the
bit/byte packer, and fallible code returns `Except`/`Option`.
-/

deriving instance DecidableEq for Except

namespace CodecCore

/-- Dot product of two integer vectors, `np.dot` on 1-D arrays
(truncating to the shorter length, which never happens in well-shaped
calls). -/
def dot (xs ys : List Nat) : Nat := (List.zipWith (· * ·) xs ys).sum

/-- Value of a big-endian digit string, as computed by `int(chunk, 2)`
in `bits_to_bytes` for binary digit lists. -/
def valBE (l : List Nat) : Nat := l.foldl (fun a b => 2 * a + b) 0

/-- Big-endian `m`-bit binary representation of `i`: the vector built by
`_get_non_zero_vectors` (`vector.insert(0, temp % 2); temp //= 2`
repeated `m` times), and also Python's `f"{byte:08b}"` when `m = 8` and
`byte < 256`. -/
def binVec : Nat → Nat → List Nat
  | 0, _ => []
  | m + 1, i => binVec m (i / 2) ++ [i % 2]

/-- Row `j` of the `s × s` identity matrix `np.eye(s, dtype=int)`. -/
def idRow (s j : Nat) : List Nat := (List.range s).map (fun c => if c = j then 1 else 0)

/-- `np.eye(s, dtype=int)` as a list of rows. -/
def eye (s : Nat) : List (List Nat) := (List.range s).map (idRow s)

/-- Column `j` of a row-major matrix. -/
def colOf (M : List (List Nat)) (j : Nat) : List Nat := M.map (fun row => row.getD j 0)

section BasicLemmas

theorem valBE_append (l : List Nat) (b : Nat) :
    valBE (l ++ [b]) = 2 * valBE l + b := by
  simp [valBE, List.foldl_append]

theorem binVec_length (m i : Nat) : (binVec m i).length = m := by
  induction m generalizing i with
  | zero => rfl
  | succ m ih => simp [binVec, ih]

theorem binVec_mem_lt (m i : Nat) : ∀ x ∈ binVec m i, x < 2 := by
  induction m generalizing i with
  | zero => simp [binVec]
  | succ m ih =>
    intro x hx
    simp only [binVec, List.mem_append, List.mem_singleton] at hx
    rcases hx with hx | hx
    · exact ih _ x hx
    · subst hx; exact Nat.mod_lt _ (by norm_num)

theorem valBE_binVec (m i : Nat) : valBE (binVec m i) = i % 2 ^ m := by
  induction m generalizing i with
  | zero => simp [binVec, valBE, Nat.mod_one]
  | succ m ih =>
    have h3 : i % (2 * 2 ^ m) = i % 2 + 2 * (i / 2 % 2 ^ m) := Nat.mod_mul
    rw [binVec, valBE_append, ih, show (2 : Nat) ^ (m + 1) = 2 * 2 ^ m by ring, h3]
    omega

theorem binVec_lt_eq (m i : Nat) (h : i < 2 ^ m) : valBE (binVec m i) = i := by
  rw [valBE_binVec]; exact Nat.mod_eq_of_lt h

theorem binVec_valBE (l : List Nat) (hl : ∀ x ∈ l, x < 2) :
    binVec l.length (valBE l) = l := by
  induction l using List.reverseRecOn with
  | nil => rfl
  | append_singleton l b ih =>
    have hb : b < 2 := hl b (by simp)
    have hdiv : (2 * valBE l + b) / 2 = valBE l := by omega
    have hmod : (2 * valBE l + b) % 2 = b := by omega
    rw [List.length_append, List.length_singleton, valBE_append, binVec, hdiv, hmod,
      ih (fun x hx => hl x (by simp [hx]))]

theorem valBE_lt (l : List Nat) (hl : ∀ x ∈ l, x < 2) : valBE l < 2 ^ l.length := by
  induction l using List.reverseRecOn with
  | nil => simp [valBE]
  | append_singleton l b ih =>
    have hb : b < 2 := hl b (by simp)
    have h := ih (fun x hx => hl x (by simp [hx]))
    rw [valBE_append, List.length_append, List.length_singleton, pow_succ]
    omega

theorem getD_map_range {α : Type} (s : Nat) (f : Nat → α) (c : Nat) (d : α) :
    ((List.range s).map f).getD c d = if c < s then f c else d := by
  induction s generalizing f c with
  | zero => simp [List.getD]
  | succ s ih =>
    rw [List.range_succ_eq_map]
    cases c with
    | zero => simp [List.getD]
    | succ c =>
      simp only [List.map_cons, List.map_map, List.getD_cons_succ]
      have hmap : (List.range s).map (f ∘ Nat.succ) = (List.range s).map (fun c => f (c + 1)) := by
        simp [Function.comp]
      rw [hmap, ih (fun c => f (c + 1)) c]
      simp [Nat.succ_lt_succ_iff]

theorem idRow_length (s j : Nat) : (idRow s j).length = s := by simp [idRow]

theorem idRow_getD (s j c : Nat) (hc : c < s) :
    (idRow s j).getD c 0 = if c = j then 1 else 0 := by
  rw [idRow, getD_map_range, if_pos hc]

theorem idRow_mem_lt (s j : Nat) : ∀ x ∈ idRow s j, x < 2 := by
  intro x hx
  simp only [idRow, List.mem_map] at hx
  obtain ⟨c, _, hc⟩ := hx
  split at hc <;> omega

theorem binVec_zero (m : Nat) : binVec m 0 = List.replicate m 0 := by
  induction m with
  | zero => rfl
  | succ m ih => rw [binVec, Nat.zero_div, Nat.zero_mod, ih, List.replicate_succ']

theorem binVec_inj {m i j : Nat} (hi : i < 2 ^ m) (hj : j < 2 ^ m)
    (h : binVec m i = binVec m j) : i = j := by
  have := congrArg valBE h
  rwa [binVec_lt_eq m i hi, binVec_lt_eq m j hj] at this

theorem idRow_inj {s j1 j2 : Nat} (h1 : j1 < s) (h2 : j2 < s)
    (h : idRow s j1 = idRow s j2) : j1 = j2 := by
  have := congrArg (fun l => List.getD l j1 0) h
  simp only [idRow_getD s j1 j1 h1, idRow_getD s j2 j1 h1] at this
  by_contra hne
  simp [if_neg hne] at this

theorem mem_eye (m : Nat) (v : List Nat) : v ∈ eye m ↔ ∃ j, j < m ∧ v = idRow m j := by
  simp only [eye, List.mem_map, List.mem_range]
  constructor
  · rintro ⟨j, hj, rfl⟩; exact ⟨j, hj, rfl⟩
  · rintro ⟨j, hj, rfl⟩; exact ⟨j, hj, rfl⟩

theorem valBE_idRow_pos (s j : Nat) (hj : j < s) : 0 < valBE (idRow s j) := by
  by_contra h
  have h0 : valBE (idRow s j) = 0 := by omega
  have hlen : (idRow s j).length = s := idRow_length s j
  have := binVec_valBE (idRow s j) (idRow_mem_lt s j)
  rw [h0, hlen, binVec_zero] at this
  have := congrArg (fun l => List.getD l j 0) this
  simp only [idRow_getD s j j hj, if_pos rfl] at this
  rw [List.getD_eq_getElem?_getD] at this
  simp [List.getElem?_replicate, hj] at this

theorem dot_cons (x y : Nat) (xs ys : List Nat) :
    dot (x :: xs) (y :: ys) = x * y + dot xs ys := by
  simp [dot]

theorem dot_append (a b c d : List Nat) (h : a.length = c.length) :
    dot (a ++ b) (c ++ d) = dot a c + dot b d := by
  simp [dot, List.zipWith_append _ _ _ _ _ h]

theorem dot_comm (xs ys : List Nat) : dot xs ys = dot ys xs := by
  unfold dot
  rw [List.zipWith_comm_of_comm]
  exact fun a b => Nat.mul_comm a b

theorem dot_replicate_zero (n : Nat) (ys : List Nat) : dot (List.replicate n 0) ys = 0 := by
  induction n generalizing ys with
  | zero => rfl
  | succ n ih =>
    cases ys with
    | nil => simp [dot]
    | cons y ys => rw [List.replicate_succ, dot_cons, ih]; simp

theorem idRow_succ_zero (s : Nat) : idRow (s + 1) 0 = 1 :: List.replicate s 0 := by
  rw [idRow, List.range_succ_eq_map, List.map_cons, List.map_map]
  have h2 : (List.range s).map ((fun c => if c = 0 then (1 : Nat) else 0) ∘ Nat.succ)
      = List.replicate s 0 := by
    rw [show ((fun c => if c = 0 then (1 : Nat) else 0) ∘ Nat.succ)
        = (fun _ : Nat => (0 : Nat)) from by funext c; simp]
    simp [List.map_const']
  rw [h2]
  simp

theorem idRow_succ_succ (s j : Nat) : idRow (s + 1) (j + 1) = 0 :: idRow s j := by
  rw [idRow, List.range_succ_eq_map, List.map_cons, List.map_map]
  congr 1
  rw [idRow]
  apply List.map_congr_left
  intro c _
  simp [Function.comp, Nat.succ_inj]

theorem dot_idRow_left (s j : Nat) (ys : List Nat) (hj : j < s) (hlen : s ≤ ys.length) :
    dot (idRow s j) ys = ys.getD j 0 := by
  induction s generalizing j ys with
  | zero => omega
  | succ s ih =>
    cases ys with
    | nil => simp at hlen
    | cons y ys =>
      cases j with
      | zero => rw [idRow_succ_zero, dot_cons, dot_replicate_zero]; simp
      | succ j =>
        rw [idRow_succ_succ, dot_cons, ih j ys (by omega) (by simpa using hlen)]
        simp

theorem dot_idRow_right (s j : Nat) (xs : List Nat) (hj : j < s) (hlen : s ≤ xs.length) :
    dot xs (idRow s j) = xs.getD j 0 := by
  rw [dot_comm]; exact dot_idRow_left s j xs hj hlen

theorem getD_set_self {α : Type} (l : List α) (i : Nat) (v d : α) (h : i < l.length) :
    (l.set i v).getD i d = v := by
  induction l generalizing i with
  | nil => simp at h
  | cons a l ih =>
    cases i with
    | zero => rfl
    | succ i => simpa using ih i (by simpa using h)

theorem getD_set_ne {α : Type} (l : List α) (i j : Nat) (v d : α) (h : i ≠ j) :
    (l.set i v).getD j d = l.getD j d := by
  induction l generalizing i j with
  | nil => rfl
  | cons a l ih =>
    cases i with
    | zero => cases j with
      | zero => omega
      | succ j => rfl
    | succ i => cases j with
      | zero => rfl
      | succ j => simpa using ih i j (by omega)

theorem set_getD_self {α : Type} (l : List α) (i : Nat) (d : α) :
    l.set i (l.getD i d) = l := by
  induction l generalizing i with
  | nil => rfl
  | cons a l ih =>
    cases i with
    | zero => rfl
    | succ i => simpa using ih i

theorem dot_set (v l : List Nat) (j x : Nat) (hjl : j < l.length) (hjv : j < v.length) :
    dot v (l.set j x) + v.getD j 0 * l.getD j 0 = dot v l + v.getD j 0 * x := by
  induction j generalizing v l with
  | zero =>
    cases l with
    | nil => simp at hjl
    | cons a l =>
      cases v with
      | nil => simp at hjv
      | cons b v => simp [dot_cons]; ring
  | succ j ih =>
    cases l with
    | nil => simp at hjl
    | cons a l =>
      cases v with
      | nil => simp at hjv
      | cons b v =>
        simp only [List.set_cons_succ, dot_cons, List.getD_cons_succ]
        have h := ih v l (by simpa using hjl) (by simpa using hjv)
        linarith

theorem set_append_left (a b : List Nat) (n v : Nat) (h : n < a.length) :
    (a ++ b).set n v = a.set n v ++ b := by
  induction a generalizing n with
  | nil => simp at h
  | cons x a ih =>
    cases n with
    | zero => rfl
    | succ n => simpa using ih n (by simpa using h)

theorem set_append_right (a b : List Nat) (n v : Nat) :
    (a ++ b).set (a.length + n) v = a ++ b.set n v := by
  induction a with
  | nil => simp
  | cons x a ih => simpa [Nat.succ_add] using ih

theorem join_blocks (w : Nat) (B : Nat) :
    ∀ (l : List Nat), l.length = B * w →
      ((List.range B).map (fun i => (l.drop (i * w)).take w)).flatten = l := by
  induction B with
  | zero =>
    intro l hl
    simp only [Nat.zero_mul] at hl
    simp [List.eq_nil_of_length_eq_zero hl]
  | succ B ih =>
    intro l hl
    rw [List.range_succ_eq_map, List.map_cons, List.map_map, List.flatten_cons]
    have hmap : (List.range B).map ((fun i => (l.drop (i * w)).take w) ∘ Nat.succ)
        = (List.range B).map (fun i => ((l.drop w).drop (i * w)).take w) := by
      apply List.map_congr_left
      intro c _
      simp only [Function.comp, Nat.succ_eq_add_one]
      rw [List.drop_drop]
      congr 2
      ring
    rw [hmap, ih (l.drop w) (by simp [hl, Nat.succ_mul])]
    simp

theorem join_blocks_getD (w : Nat) (L : List (List Nat)) (hL : ∀ b ∈ L, b.length = w) :
    ∀ i, i < L.length → ((L.flatten).drop (i * w)).take w = L.getD i [] := by
  induction L with
  | nil => simp
  | cons b L ih =>
    intro i hi
    have hb : b.length = w := hL b (by simp)
    cases i with
    | zero =>
      simp only [Nat.zero_mul, List.drop_zero, List.flatten_cons, List.getD_cons_zero]
      rw [← hb, List.take_left]
    | succ i =>
      rw [List.flatten_cons, List.getD_cons_succ,
        show (i + 1) * w = b.length + i * w from by rw [hb]; ring, List.drop_append]
      exact ih (fun x hx => hL x (by simp [hx])) i (by simpa using hi)

theorem set_join_blocks (w : Nat) (L : List (List Nat)) (hL : ∀ b ∈ L, b.length = w) :
    ∀ (i j v : Nat), i < L.length → j < w →
      (L.flatten).set (i * w + j) v = (L.set i ((L.getD i []).set j v)).flatten := by
  induction L with
  | nil => intro i j v hi _; simp at hi
  | cons b L ih =>
    intro i j v hi hj
    have hb : b.length = w := hL b (by simp)
    cases i with
    | zero =>
      simp only [Nat.zero_mul, Nat.zero_add, List.flatten_cons, List.getD_cons_zero,
        List.set_cons_zero]
      rw [set_append_left _ _ _ _ (by omega)]
    | succ i =>
      simp only [List.flatten_cons, List.set_cons_succ, List.getD_cons_succ]
      rw [show (i + 1) * w + j = b.length + (i * w + j) from by rw [hb]; ring,
        set_append_right]
      rw [ih (fun x hx => hL x (by simp [hx])) i j v (by simpa using hi) hj]

theorem getD_append_left {α : Type} (a b : List α) (i : Nat) (d : α) (h : i < a.length) :
    (a ++ b).getD i d = a.getD i d := by
  induction a generalizing i with
  | nil => simp at h
  | cons x a ih =>
    cases i with
    | zero => rfl
    | succ i => simpa using ih i (by simpa using h)

theorem getD_append_right {α : Type} (a b : List α) (i : Nat) (d : α) :
    (a ++ b).getD (a.length + i) d = b.getD i d := by
  induction a with
  | nil => simp
  | cons x a ih => simpa [Nat.succ_add] using ih

theorem map_range_getD {α β : Type} (L : List α) (d : α) (f : α → β) :
    (List.range L.length).map (fun i => f (L.getD i d)) = L.map f := by
  induction L with
  | nil => rfl
  | cons a L ih =>
    rw [List.length_cons, List.range_succ_eq_map, List.map_cons, List.map_map, List.map_cons]
    have htail : (List.range L.length).map ((fun i => f ((a :: L).getD i d)) ∘ Nat.succ)
        = L.map f := by
      rw [← ih]
      apply List.map_congr_left
      intro c _
      rfl
    rw [htail]
    rfl

theorem valBE_eq_zero (l : List Nat) (hl : ∀ x ∈ l, x = 0) : valBE l = 0 := by
  induction l using List.reverseRecOn with
  | nil => rfl
  | append_singleton l b ih =>
    rw [valBE_append, ih (fun x hx => hl x (by simp [hx])), hl b (by simp)]

theorem length_filter_split {α : Type} (l : List α) (p : α → Bool) :
    (l.filter p).length + (l.filter (fun x => !(p x))).length = l.length := by
  induction l with
  | nil => rfl
  | cons a l ih =>
    rcases Bool.eq_false_or_eq_true (p a) with h | h <;>
      simp [List.filter_cons, h] <;> omega

theorem nodup_all_eq_singleton {α : Type} (l : List α) (a : α) (hnd : l.Nodup)
    (hall : ∀ x ∈ l, x = a) (hmem : a ∈ l) : l = [a] := by
  cases l with
  | nil => simp at hmem
  | cons x xs =>
    have hx : x = a := hall x (by simp)
    subst hx
    have hxs : xs = [] := by
      rw [List.eq_nil_iff_forall_not_mem]
      intro y hy
      have : y = x := hall y (by simp [hy])
      subst this
      exact (List.nodup_cons.mp hnd).1 hy
    simp [hxs]

theorem sum_map_if_not_mem (l : List Nat) (i0 : Nat) (h : i0 ∉ l) :
    (l.map (fun i => if i = i0 then 1 else 0)).sum = 0 := by
  induction l with
  | nil => rfl
  | cons a l ih =>
    simp only [List.map_cons, List.sum_cons]
    rw [if_neg (by rintro rfl; exact h (by simp)), ih (fun hm => h (by simp [hm]))]

theorem sum_map_if_nodup_mem (l : List Nat) (i0 : Nat) (hnd : l.Nodup) (h : i0 ∈ l) :
    (l.map (fun i => if i = i0 then 1 else 0)).sum = 1 := by
  induction l with
  | nil => simp at h
  | cons a l ih =>
    simp only [List.map_cons, List.sum_cons]
    obtain ⟨hna, hndl⟩ := List.nodup_cons.mp hnd
    by_cases ha : a = i0
    · subst ha
      rw [if_pos rfl, sum_map_if_not_mem l a hna]
    · rw [if_neg ha]
      have hmem : i0 ∈ l := by
        rcases List.mem_cons.mp h with hh | hh
        · exact absurd hh.symm ha
        · exact hh
      rw [ih hndl hmem]

theorem flatten_length_const {α : Type} (w : Nat) (L : List (List α))
    (hL : ∀ b ∈ L, b.length = w) : L.flatten.length = L.length * w := by
  induction L with
  | nil => simp
  | cons b L ih =>
    rw [List.flatten_cons, List.length_append, hL b (by simp),
      ih (fun x hx => hL x (by simp [hx])), List.length_cons, Nat.succ_mul]
    ring

end BasicLemmas

namespace Hamming

/-- `Hamming._get_non_zero_vectors`: iterate `i = 1 .. 2**m - 1`, convert each
`i` to its big-endian `m`-bit vector, and keep it unless it is a row of the
`m × m` identity matrix. -/
def nonZeroVectors (m : Nat) : List (List Nat) :=
  ((List.range (2 ^ m - 1)).map (fun i => binVec m (i + 1))).filter
    (fun v => decide (v ∉ eye m))

/-- `Hamming._build_H`: `H = np.hstack((parity_matrix.T, I_m))`, row-major.
Row `r` of `H` is column `r` of `P` followed by row `r` of `I_m`. -/
def buildH (m : Nat) (P : List (List Nat)) : List (List Nat) :=
  (List.range m).map (fun r => colOf P r ++ idRow m r)

/-- `Hamming._build_G`: `G = np.hstack((np.eye(k), P))`, row-major; `np.hstack`
requires `P` to have exactly `k` rows (checked by the constructor embedding). -/
def buildG (k : Nat) (P : List (List Nat)) : List (List Nat) :=
  (List.range k).map (fun i => idRow k i ++ P.getD i [])

/-- `np.dot(G, H.T) % 2` from `_check_valid_G_H`. -/
def ghProduct (G H : List (List Nat)) : List (List Nat) :=
  G.map (fun grow => H.map (fun hrow => dot grow hrow % 2))

/-- `_check_valid_G_H`: `np.all(product == 0)`. -/
def checkValidGH (G H : List (List Nat)) : Bool :=
  (ghProduct G H).all (fun row => row.all (fun x => x == 0))

/-- The state held by a constructed `Hamming` instance.  `data_length` is the
mutable instance field written by `encode` and read by `decode`. -/
structure Codec where
  n : Nat
  k : Nat
  m : Nat
  P : List (List Nat)
  H : List (List Nat)
  G : List (List Nat)
  data_length : Nat
deriving DecidableEq

/-- The failure modes of `Hamming.__init__`: the `assert n > k`
(`_check_valid_parameters`), a `np.hstack` shape failure in `_build_H` or
`_build_G`, and the `assert np.all(product == 0)` in `_check_valid_G_H`. -/
inductive InitError where
  | invalidParameters
  | shapeMismatch
  | assertionFailed
deriving DecidableEq

/-- `Hamming.__init__(k, n)`.  `np.hstack((parity_matrix.T, I_m))` fails when
`parity_matrix` is empty (a 1-D `np.array([])` cannot be stacked with the 2-D
identity), and `np.hstack((np.eye(k), P))` fails when `P` does not have
exactly `k` rows; both numpy failures are `shapeMismatch`. -/
def init (n k : Nat) : Except InitError Codec :=
  if n > k then
    let m := n - k
    let P := nonZeroVectors m
    if P.isEmpty then .error .shapeMismatch
    else
      let H := buildH m P
      if P.length = k then
        let G := buildG k P
        if checkValidGH G H then .ok ⟨n, k, m, P, H, G, 0⟩
        else .error .assertionFailed
      else .error .shapeMismatch
  else .error .invalidParameters

/-- Looking up a syndrome in `_build_syndrome_map`'s dict
`{tuple(H[:, col]): col for col in range(self.n)}`: a later assignment for an
equal key overwrites an earlier one, so the lookup returns the last column of
`H` equal to the syndrome, if any. -/
def syndromeLookup (H : List (List Nat)) (n : Nat) (s : List Nat) : Option Nat :=
  ((List.range n).filter (fun c => colOf H c == s)).getLast?

/-- `Hamming._apply_padding`: right-pad with zeros to a multiple of `k`. -/
def applyPadding (k : Nat) (dataBits : List Nat) : List Nat :=
  if dataBits.length % k ≠ 0 then
    dataBits ++ List.replicate (k - dataBits.length % k) 0
  else dataBits

/-- `np.dot(block, M) % 2` for a row vector `block` against the rows of `M`,
producing `cols` entries. -/
def vecMat (v : List Nat) (M : List (List Nat)) (cols : Nat) : List Nat :=
  (List.range cols).map (fun j => dot v (colOf M j) % 2)

/-- `Hamming.encode`: records `self.data_length = len(data_bits)` (returned as
the updated codec), pads, splits into `k`-bit blocks and maps each block to
`np.dot(block, G) % 2`. -/
def encode (c : Codec) (dataBits : List Nat) : Codec × List Nat :=
  let c' := { c with data_length := dataBits.length }
  let data := applyPadding c.k dataBits
  let nBlocks := data.length / c.k
  (c', ((List.range nBlocks).map (fun i =>
      vecMat ((data.drop (i * c.k)).take c.k) c.G c.n)).flatten)

/-- One iteration of the `Hamming.decode` block loop: syndrome
`np.dot(H, block) % 2`; if nonzero and present in the syndrome map, flip the
indicated bit; return the first `k` bits and the number of corrections (0/1). -/
def decodeBlock (c : Codec) (block : List Nat) : List Nat × Nat :=
  let syndrome := c.H.map (fun row => dot row block % 2)
  if syndrome.any (fun x => x != 0) then
    match syndromeLookup c.H c.n syndrome with
    | some pos => ((block.set pos (1 - block.getD pos 0)).take c.k, 1)
    | none => (block.take c.k, 0)
  else (block.take c.k, 0)

/-- `Hamming.decode`: length check (`ValueError`), per-block correction and
data extraction, concatenation, and truncation to `self.data_length`. -/
def decode (c : Codec) (received : List Nat) : Except String (List Nat × Nat) :=
  if received.length % c.n ≠ 0 then
    .error ("Received data length must be a multiple of " ++ toString c.n)
  else
    let results := (List.range (received.length / c.n)).map
      (fun i => decodeBlock c ((received.drop (i * c.n)).take c.n))
    .ok (((results.map Prod.fst).flatten).take c.data_length,
      (results.map Prod.snd).sum)

theorem mem_nonZeroVectors (m : Nat) (v : List Nat) (h : v ∈ nonZeroVectors m) :
    v.length = m ∧ (∀ x ∈ v, x < 2) ∧ v ∉ eye m ∧
      ∃ i, i < 2 ^ m ∧ i ≠ 0 ∧ v = binVec m i := by
  unfold nonZeroVectors at h
  rw [List.mem_filter] at h
  obtain ⟨hmem, hpred⟩ := h
  rw [List.mem_map] at hmem
  obtain ⟨i, hi, rfl⟩ := hmem
  rw [List.mem_range] at hi
  have h2m : 0 < 2 ^ m := pow_pos (by norm_num) m
  exact ⟨binVec_length m (i + 1), binVec_mem_lt m (i + 1), by simpa using hpred,
    i + 1, by omega, by omega, rfl⟩

theorem nonZeroVectors_nodup (m : Nat) : (nonZeroVectors m).Nodup := by
  unfold nonZeroVectors
  apply List.Nodup.filter
  apply List.Nodup.map_on
  · intro i hi j hj heq
    rw [List.mem_range] at hi hj
    have h2m : 0 < 2 ^ m := pow_pos (by norm_num) m
    have := binVec_inj (show i + 1 < 2 ^ m by omega) (show j + 1 < 2 ^ m by omega) heq
    omega
  · exact List.nodup_range _

theorem length_filter_range_eq_card (N : Nat) (p : Nat → Prop) [DecidablePred p] :
    ((List.range N).filter (fun i => decide (p i))).length
      = ((Finset.range N).filter p).card := rfl

theorem count_eye_hits (m : Nat) :
    ((List.range (2 ^ m - 1)).filter
      (fun i => decide (binVec m (i + 1) ∈ eye m))).length = m := by
  classical
  rw [length_filter_range_eq_card]
  have h2m : 0 < 2 ^ m := pow_pos (by norm_num) m
  have hrow_val : ∀ j, j < m → binVec m (valBE (idRow m j)) = idRow m j := by
    intro j hj
    have h := binVec_valBE (idRow m j) (idRow_mem_lt m j)
    rwa [idRow_length] at h
  have hrow_lt : ∀ j, j < m → valBE (idRow m j) < 2 ^ m := by
    intro j hj
    have := valBE_lt (idRow m j) (idRow_mem_lt m j)
    rwa [idRow_length] at this
  have himg : (Finset.range (2 ^ m - 1)).filter (fun i => binVec m (i + 1) ∈ eye m)
      = (Finset.range m).image (fun j => valBE (idRow m j) - 1) := by
    ext i
    simp only [Finset.mem_filter, Finset.mem_range, Finset.mem_image]
    constructor
    · rintro ⟨hiN, hmem⟩
      rw [mem_eye] at hmem
      obtain ⟨j, hj, hv⟩ := hmem
      refine ⟨j, hj, ?_⟩
      have h1 : valBE (binVec m (i + 1)) = i + 1 := binVec_lt_eq m (i + 1) (by omega)
      rw [hv] at h1
      omega
    · rintro ⟨j, hj, rfl⟩
      have hpos : 0 < valBE (idRow m j) := valBE_idRow_pos m j hj
      have hlt := hrow_lt j hj
      refine ⟨by omega, ?_⟩
      rw [mem_eye]
      refine ⟨j, hj, ?_⟩
      rw [show valBE (idRow m j) - 1 + 1 = valBE (idRow m j) from by omega]
      exact hrow_val j hj
  have hinj : Set.InjOn (fun j => valBE (idRow m j) - 1) ↑(Finset.range m) := by
    intro j1 h1 j2 h2 heq
    rw [Finset.mem_coe, Finset.mem_range] at h1 h2
    have hp1 : 0 < valBE (idRow m j1) := valBE_idRow_pos m j1 h1
    have hp2 : 0 < valBE (idRow m j2) := valBE_idRow_pos m j2 h2
    simp only at heq
    have hv : valBE (idRow m j1) = valBE (idRow m j2) := by omega
    have hrow : idRow m j1 = idRow m j2 := by
      rw [← hrow_val j1 h1, ← hrow_val j2 h2, hv]
    exact idRow_inj h1 h2 hrow
  rw [himg, Finset.card_image_of_injOn hinj, Finset.card_range]

theorem nonZeroVectors_length (m : Nat) :
    (nonZeroVectors m).length = 2 ^ m - 1 - m := by
  classical
  unfold nonZeroVectors
  have hmf : ((List.range (2 ^ m - 1)).map (fun i => binVec m (i + 1))).filter
        (fun v => decide (v ∉ eye m))
      = ((List.range (2 ^ m - 1)).filter
        (fun i => decide (binVec m (i + 1) ∉ eye m))).map (fun i => binVec m (i + 1)) := by
    rw [List.filter_map]
    rfl
  rw [hmf, List.length_map]
  have hsplit := length_filter_split (List.range (2 ^ m - 1))
      (fun i => decide (binVec m (i + 1) ∈ eye m))
  have hchg : (List.range (2 ^ m - 1)).filter
        (fun i => !(decide (binVec m (i + 1) ∈ eye m)))
      = (List.range (2 ^ m - 1)).filter (fun i => decide (binVec m (i + 1) ∉ eye m)) := by
    apply List.filter_congr
    intro i _
    simp
  rw [hchg] at hsplit
  have hcnt := count_eye_hits m
  rw [List.length_range] at hsplit
  omega

/-- The structural facts that hold for every codec the constructor returns. -/
structure Wf (c : Codec) : Prop where
  hk : 0 < c.k
  hm : 0 < c.m
  hn : c.n = c.k + c.m
  hPlen : c.P.length = c.k
  hProws : ∀ v ∈ c.P, v.length = c.m ∧ ∀ x ∈ v, x < 2
  hPnodup : c.P.Nodup
  hPeye : ∀ v ∈ c.P, v ∉ eye c.m
  hPnz : ∀ v ∈ c.P, ∃ x ∈ v, x ≠ 0
  hH : c.H = buildH c.m c.P
  hG : c.G = buildG c.k c.P

theorem init_ok_fields {n k : Nat} {c : Codec} (h : init n k = .ok c) :
    c.n = n ∧ c.k = k ∧ c.m = n - k ∧ c.P = nonZeroVectors (n - k) ∧
      c.H = buildH (n - k) c.P ∧ c.G = buildG k c.P ∧ c.data_length = 0 ∧
      k < n ∧ c.P.length = k ∧ c.P ≠ [] := by
  simp only [init] at h
  split at h
  next hnk =>
    split at h
    next => exact Except.noConfusion h
    next hne =>
      split at h
      next hlen =>
        split at h
        next =>
          have hc := Except.ok.inj h
          subst hc
          refine ⟨rfl, rfl, rfl, rfl, rfl, rfl, rfl, hnk, hlen, ?_⟩
          simpa [List.isEmpty_iff] using hne
        next => exact Except.noConfusion h
      next => exact Except.noConfusion h
  next => exact Except.noConfusion h

theorem init_ok_wf {n k : Nat} {c : Codec} (h : init n k = .ok c) : Wf c := by
  obtain ⟨hn, hk, hm, hP, hH, hG, _, hkn, hPlen, hPne⟩ := init_ok_fields h
  have hmnk : c.m = n - k := hm
  refine ⟨?_, ?_, ?_, ?_, ?_, ?_, ?_, ?_, ?_, ?_⟩
  · rw [hk, ← hPlen]
    exact List.length_pos.mpr hPne
  · omega
  · omega
  · rw [hk]; exact hPlen
  · intro v hv
    rw [hP] at hv
    obtain ⟨hlen, hlt, _, _⟩ := mem_nonZeroVectors _ v hv
    exact ⟨by rw [hmnk]; exact hlen, hlt⟩
  · rw [hP]; exact nonZeroVectors_nodup _
  · intro v hv
    rw [hP] at hv
    obtain ⟨_, _, heye, _⟩ := mem_nonZeroVectors _ v hv
    rw [hmnk]; exact heye
  · intro v hv
    rw [hP] at hv
    obtain ⟨hlen, hlt, _, i, hilt, hine, hbv⟩ := mem_nonZeroVectors _ v hv
    by_contra hall
    push_neg at hall
    have h0 : valBE v = 0 := valBE_eq_zero v hall
    rw [hbv, binVec_lt_eq _ i hilt] at h0
    exact hine h0
  · rw [hmnk]; exact hH
  · rw [hk]; exact hG

theorem colOf_length (M : List (List Nat)) (j : Nat) : (colOf M j).length = M.length := by
  simp [colOf]

theorem colOf_eq_map_range (M : List (List Nat)) (j : Nat) :
    colOf M j = (List.range M.length).map (fun i => (M.getD i []).getD j 0) :=
  (map_range_getD M [] (fun row => row.getD j 0)).symm

theorem colOf_getD (M : List (List Nat)) (j i : Nat) (hi : i < M.length) :
    (colOf M j).getD i 0 = (M.getD i []).getD j 0 := by
  rw [colOf_eq_map_range, getD_map_range, if_pos hi]

theorem buildG_length (k : Nat) (P : List (List Nat)) : (buildG k P).length = k := by
  simp [buildG]

theorem buildG_getD (k : Nat) (P : List (List Nat)) (i : Nat) (hi : i < k) :
    (buildG k P).getD i [] = idRow k i ++ P.getD i [] := by
  rw [buildG, getD_map_range, if_pos hi]

theorem buildH_length (m : Nat) (P : List (List Nat)) : (buildH m P).length = m := by
  simp [buildH]

theorem buildH_getD (m : Nat) (P : List (List Nat)) (r : Nat) (hr : r < m) :
    (buildH m P).getD r [] = colOf P r ++ idRow m r := by
  rw [buildH, getD_map_range, if_pos hr]

theorem colOf_buildG_left (k : Nat) (P : List (List Nat)) (j : Nat) (hj : j < k) :
    colOf (buildG k P) j = idRow k j := by
  unfold colOf buildG
  rw [List.map_map,
    show idRow k j = (List.range k).map (fun c => if c = j then (1 : Nat) else 0) from rfl]
  apply List.map_congr_left
  intro i hi
  rw [List.mem_range] at hi
  simp only [Function.comp]
  rw [getD_append_left _ _ _ _ (by rw [idRow_length]; exact hj), idRow_getD k i j hj]
  by_cases h : i = j
  · simp [h]
  · rw [if_neg (fun hh => h hh.symm), if_neg h]

theorem colOf_buildG_right (k m : Nat) (P : List (List Nat)) (r : Nat)
    (hP : P.length = k) :
    colOf (buildG k P) (k + r) = colOf P r := by
  unfold buildG
  rw [colOf_eq_map_range, List.length_map, List.length_range]
  have hcongr : ∀ i ∈ List.range k,
      (((List.range k).map (fun i => idRow k i ++ P.getD i [])).getD i []).getD (k + r) 0
        = (P.getD i []).getD r 0 := by
    intro i hi
    rw [List.mem_range] at hi
    rw [getD_map_range, if_pos hi,
      show k + r = (idRow k i).length + r from by rw [idRow_length], getD_append_right]
  rw [List.map_congr_left hcongr, ← hP,
    map_range_getD P [] (fun row => row.getD r 0)]
  rfl

theorem colOf_buildH_left (m : Nat) (P : List (List Nat)) (j : Nat)
    (hj : j < P.length) (hrow : (P.getD j []).length = m) :
    colOf (buildH m P) j = P.getD j [] := by
  unfold buildH
  rw [colOf_eq_map_range, List.length_map, List.length_range]
  have hcongr : ∀ r ∈ List.range m,
      (((List.range m).map (fun r => colOf P r ++ idRow m r)).getD r []).getD j 0
        = (P.getD j []).getD r 0 := by
    intro r hr
    rw [List.mem_range] at hr
    rw [getD_map_range, if_pos hr,
      getD_append_left _ _ _ _ (by rw [colOf_length]; exact hj), colOf_getD P r j hj]
  rw [List.map_congr_left hcongr, ← hrow,
    map_range_getD (P.getD j []) 0 (fun x => x)]
  simp

theorem colOf_buildH_right (m : Nat) (P : List (List Nat)) (t : Nat) (ht : t < m) :
    colOf (buildH m P) (P.length + t) = idRow m t := by
  unfold buildH
  rw [colOf_eq_map_range, List.length_map, List.length_range]
  have hcongr : ∀ r ∈ List.range m,
      (((List.range m).map (fun r => colOf P r ++ idRow m r)).getD r []).getD (P.length + t) 0
        = if r = t then 1 else 0 := by
    intro r hr
    rw [List.mem_range] at hr
    rw [getD_map_range, if_pos hr,
      show P.length + t = (colOf P r).length + t from by rw [colOf_length], getD_append_right,
      idRow_getD m r t ht]
    by_cases h : t = r <;> simp [h, eq_comm]
  rw [List.map_congr_left hcongr]
  rfl

theorem getD_mem_of_lt {α : Type} (l : List α) (i : Nat) (d : α) (h : i < l.length) :
    l.getD i d ∈ l := by
  rw [List.getD_eq_getElem l d h]
  exact List.getElem_mem h

theorem getD_lt_two (l : List Nat) (h : ∀ x ∈ l, x < 2) (i : Nat) : l.getD i 0 < 2 := by
  by_cases hi : i < l.length
  · exact h _ (getD_mem_of_lt _ _ _ hi)
  · rw [List.getD_eq_default _ _ (by omega)]
    omega

theorem any_ne_zero_eq_false (l : List Nat) (h : ∀ x ∈ l, x = 0) :
    l.any (fun x => x != 0) = false := by
  rw [List.any_eq_false]
  intro x hx
  simp [h x hx]

theorem any_ne_zero_eq_true (l : List Nat) (h : ∃ x ∈ l, x ≠ 0) :
    l.any (fun x => x != 0) = true := by
  rw [List.any_eq_true]
  obtain ⟨x, hx, hne⟩ := h
  exact ⟨x, hx, by simpa using hne⟩

theorem nodup_getD_inj {α : Type} (l : List α) (d : α) (hnd : l.Nodup) :
    ∀ i j, i < l.length → j < l.length → l.getD i d = l.getD j d → i = j := by
  induction l with
  | nil => intro i j hi _ _; simp at hi
  | cons a l ih =>
    intro i j hi hj heq
    obtain ⟨hna, hndl⟩ := List.nodup_cons.mp hnd
    cases i with
    | zero =>
      cases j with
      | zero => rfl
      | succ j =>
        exfalso
        rw [List.getD_cons_zero, List.getD_cons_succ] at heq
        exact hna (heq ▸ getD_mem_of_lt _ _ _ (by simpa using hj))
    | succ i =>
      cases j with
      | zero =>
        exfalso
        rw [List.getD_cons_zero, List.getD_cons_succ] at heq
        exact hna (heq ▸ getD_mem_of_lt _ _ _ (by simpa using hi))
      | succ j =>
        rw [List.getD_cons_succ, List.getD_cons_succ] at heq
        have := ih hndl i j (by simpa using hi) (by simpa using hj) heq
        omega

theorem H_row (c : Codec) (W : Wf c) (r : Nat) (hr : r < c.m) :
    c.H.getD r [] = colOf c.P r ++ idRow c.m r := by
  rw [W.hH]; exact buildH_getD c.m c.P r hr

theorem H_row_length (c : Codec) (W : Wf c) (r : Nat) (hr : r < c.m) :
    (c.H.getD r []).length = c.n := by
  rw [H_row c W r hr, List.length_append, colOf_length, idRow_length, W.hPlen, W.hn]

theorem H_row_entries (c : Codec) (W : Wf c) (r : Nat) (hr : r < c.m) :
    ∀ x ∈ c.H.getD r [], x < 2 := by
  rw [H_row c W r hr]
  intro x hx
  rcases List.mem_append.mp hx with hx | hx
  · obtain ⟨row, hrow, hval⟩ := List.mem_map.mp hx
    rw [← hval]
    exact getD_lt_two row (W.hProws row hrow).2 r
  · exact idRow_mem_lt c.m r x hx

theorem H_col_left (c : Codec) (W : Wf c) (j : Nat) (hj : j < c.k) :
    colOf c.H j = c.P.getD j [] := by
  rw [W.hH]
  exact colOf_buildH_left c.m c.P j (by rw [W.hPlen]; exact hj)
    ((W.hProws _ (getD_mem_of_lt _ _ _ (by rw [W.hPlen]; exact hj))).1)

theorem H_col_right (c : Codec) (W : Wf c) (t : Nat) (ht : t < c.m) :
    colOf c.H (c.k + t) = idRow c.m t := by
  rw [W.hH, ← W.hPlen]
  exact colOf_buildH_right c.m c.P t ht

theorem H_col_nonzero (c : Codec) (W : Wf c) (j : Nat) (hj : j < c.n) :
    ∃ x ∈ colOf c.H j, x ≠ 0 := by
  by_cases hjk : j < c.k
  · rw [H_col_left c W j hjk]
    exact W.hPnz _ (getD_mem_of_lt _ _ _ (by rw [W.hPlen]; exact hjk))
  · have ht : j - c.k < c.m := by have := W.hn; omega
    have hj' : j = c.k + (j - c.k) := by omega
    rw [hj', H_col_right c W _ ht]
    refine ⟨(idRow c.m (j - c.k)).getD (j - c.k) 0, getD_mem_of_lt _ _ _ (by rw [idRow_length]; exact ht), ?_⟩
    rw [idRow_getD _ _ _ ht, if_pos rfl]
    omega

theorem H_col_inj (c : Codec) (W : Wf c) (j1 j2 : Nat) (h1 : j1 < c.n) (h2 : j2 < c.n)
    (heq : colOf c.H j1 = colOf c.H j2) : j1 = j2 := by
  have hn := W.hn
  by_cases ha : j1 < c.k <;> by_cases hb : j2 < c.k
  · rw [H_col_left c W j1 ha, H_col_left c W j2 hb] at heq
    exact nodup_getD_inj c.P [] W.hPnodup j1 j2 (by rw [W.hPlen]; exact ha)
      (by rw [W.hPlen]; exact hb) heq
  · exfalso
    have ht : j2 - c.k < c.m := by omega
    rw [H_col_left c W j1 ha, show j2 = c.k + (j2 - c.k) from by omega,
      H_col_right c W _ ht] at heq
    exact W.hPeye _ (getD_mem_of_lt _ _ _ (by rw [W.hPlen]; exact ha))
      ((mem_eye c.m _).mpr ⟨j2 - c.k, ht, heq⟩)
  · exfalso
    have ht : j1 - c.k < c.m := by omega
    rw [H_col_left c W j2 hb, show j1 = c.k + (j1 - c.k) from by omega,
      H_col_right c W _ ht] at heq
    exact W.hPeye _ (getD_mem_of_lt _ _ _ (by rw [W.hPlen]; exact hb))
      ((mem_eye c.m _).mpr ⟨j1 - c.k, ht, heq.symm⟩)
  · have ht1 : j1 - c.k < c.m := by omega
    have ht2 : j2 - c.k < c.m := by omega
    rw [show j1 = c.k + (j1 - c.k) from by omega, show j2 = c.k + (j2 - c.k) from by omega,
      H_col_right c W _ ht1, H_col_right c W _ ht2] at heq
    have := idRow_inj ht1 ht2 heq
    omega

theorem syndromeLookup_col (c : Codec) (W : Wf c) (j : Nat) (hj : j < c.n) :
    syndromeLookup c.H c.n (colOf c.H j) = some j := by
  have hfilt : (List.range c.n).filter (fun x => colOf c.H x == colOf c.H j) = [j] := by
    apply nodup_all_eq_singleton
    · exact List.Nodup.filter _ (List.nodup_range _)
    · intro x hx
      rw [List.mem_filter, List.mem_range] at hx
      obtain ⟨hxn, hbeq⟩ := hx
      exact H_col_inj c W x j hxn hj (by simpa using hbeq)
    · rw [List.mem_filter, List.mem_range]
      exact ⟨hj, by simp⟩
  rw [syndromeLookup, hfilt]
  rfl

theorem range_split (a b : Nat) :
    List.range (a + b) = List.range a ++ (List.range b).map (fun i => a + i) := by
  induction b with
  | zero => simp
  | succ b ih =>
    rw [show a + (b + 1) = (a + b) + 1 from rfl, List.range_succ, ih, List.range_succ]
    simp [List.map_append, List.append_assoc]

/-- The parity section of an encoded block: entry `r` is
`np.dot(block, G)[k + r] % 2`. -/
def paritySec (c : Codec) (b : List Nat) : List Nat :=
  (List.range c.m).map (fun r => dot b (colOf c.P r) % 2)

theorem paritySec_length (c : Codec) (b : List Nat) : (paritySec c b).length = c.m := by
  simp [paritySec]

theorem paritySec_entries (c : Codec) (b : List Nat) : ∀ x ∈ paritySec c b, x < 2 := by
  intro x hx
  simp only [paritySec, List.mem_map] at hx
  obtain ⟨r, _, hval⟩ := hx
  rw [← hval]
  exact Nat.mod_lt _ (by norm_num)

theorem vecMat_buildG (c : Codec) (W : Wf c) (b : List Nat)
    (hb : b.length = c.k) (hbin : ∀ x ∈ b, x < 2) :
    vecMat b c.G c.n = b ++ paritySec c b := by
  rw [vecMat, W.hn, range_split, List.map_append, List.map_map]
  congr 1
  · have hcongr : ∀ j ∈ List.range c.k,
        dot b (colOf c.G j) % 2 = b.getD j 0 := by
      intro j hj
      rw [List.mem_range] at hj
      rw [W.hG, colOf_buildG_left c.k c.P j hj,
        dot_idRow_right c.k j b hj (by omega)]
      exact Nat.mod_eq_of_lt (getD_lt_two b hbin j)
    rw [List.map_congr_left hcongr, ← hb, map_range_getD b 0 (fun x => x)]
    simp
  · apply List.map_congr_left
    intro r hr
    simp only [Function.comp]
    rw [W.hG, colOf_buildG_right c.k c.m c.P r W.hPlen]

theorem dot_H_encBlock (c : Codec) (W : Wf c) (b : List Nat)
    (hb : b.length = c.k) (r : Nat) (hr : r < c.m) :
    dot (c.H.getD r []) (b ++ paritySec c b) % 2 = 0 := by
  rw [H_row c W r hr,
    dot_append _ _ _ _ (by rw [colOf_length, W.hPlen, hb]),
    dot_idRow_left c.m r (paritySec c b) hr (by rw [paritySec_length]),
    paritySec, getD_map_range, if_pos hr, dot_comm]
  omega

theorem syndrome_encBlock (c : Codec) (W : Wf c) (b : List Nat) (hb : b.length = c.k) :
    c.H.map (fun row => dot row (b ++ paritySec c b) % 2)
      = (List.range c.m).map (fun _ => 0) := by
  rw [W.hH, buildH, List.map_map]
  apply List.map_congr_left
  intro r hr
  rw [List.mem_range] at hr
  simp only [Function.comp]
  have := dot_H_encBlock c W b hb r hr
  rwa [H_row c W r hr] at this

theorem decodeBlock_encBlock (c : Codec) (W : Wf c) (b : List Nat)
    (hb : b.length = c.k) (hbin : ∀ x ∈ b, x < 2) :
    decodeBlock c (vecMat b c.G c.n) = (b, 0) := by
  rw [vecMat_buildG c W b hb hbin, decodeBlock]
  simp only [syndrome_encBlock c W b hb]
  have hfalse : (((List.range c.m).map (fun _ => (0 : Nat))).any (fun x => x != 0)) = false := by
    apply any_ne_zero_eq_false
    intro x hx
    obtain ⟨r, -, h0⟩ := List.mem_map.mp hx
    exact h0.symm
  simp only [hfalse, Bool.false_eq_true, if_false]
  rw [← hb, List.take_left]

theorem dot_H_flip (c : Codec) (W : Wf c) (e : List Nat) (j : Nat)
    (hlen : e.length = c.n) (hbin : ∀ x ∈ e, x < 2) (hj : j < c.n)
    (r : Nat) (hr : r < c.m)
    (hz : dot (c.H.getD r []) e % 2 = 0) :
    dot (c.H.getD r []) (e.set j (1 - e.getD j 0)) % 2 = (c.H.getD r []).getD j 0 := by
  have hvlen : (c.H.getD r []).length = c.n := H_row_length c W r hr
  have hvlt : (c.H.getD r []).getD j 0 < 2 := getD_lt_two _ (H_row_entries c W r hr) j
  have hej : e.getD j 0 < 2 := getD_lt_two e hbin j
  have hds := dot_set (c.H.getD r []) e j (1 - e.getD j 0) (by omega) (by omega)
  have hcase : e.getD j 0 = 0 ∨ e.getD j 0 = 1 := by omega
  rcases hcase with h0 | h0 <;> rw [h0] at hds ⊢ <;>
    simp only [Nat.sub_zero, Nat.sub_self, Nat.mul_zero, Nat.mul_one, Nat.add_zero] at hds ⊢ <;>
    omega

theorem syndrome_flip (c : Codec) (W : Wf c) (e : List Nat) (j : Nat)
    (hlen : e.length = c.n) (hbin : ∀ x ∈ e, x < 2) (hj : j < c.n)
    (hz : ∀ r, r < c.m → dot (c.H.getD r []) e % 2 = 0) :
    c.H.map (fun row => dot row (e.set j (1 - e.getD j 0)) % 2) = colOf c.H j := by
  have hrows : ∀ r, r < c.m →
      dot (c.H.getD r []) (e.set j (1 - e.getD j 0)) % 2 = (c.H.getD r []).getD j 0 :=
    fun r hr => dot_H_flip c W e j hlen hbin hj r hr (hz r hr)
  rw [W.hH] at hrows ⊢
  rw [colOf, buildH, List.map_map, List.map_map]
  apply List.map_congr_left
  intro r hr
  rw [List.mem_range] at hr
  simp only [Function.comp]
  have h1 := hrows r hr
  rwa [buildH_getD c.m c.P r hr] at h1

theorem decodeBlock_flip (c : Codec) (W : Wf c) (b : List Nat)
    (hb : b.length = c.k) (hbin : ∀ x ∈ b, x < 2) (j : Nat) (hj : j < c.n) :
    decodeBlock c ((b ++ paritySec c b).set j (1 - (b ++ paritySec c b).getD j 0))
      = (b, 1) := by
  set e := b ++ paritySec c b with he
  have hlen : e.length = c.n := by
    rw [he, List.length_append, hb, paritySec_length, W.hn]
  have hebin : ∀ x ∈ e, x < 2 := by
    intro x hx
    rcases List.mem_append.mp hx with hx | hx
    · exact hbin x hx
    · exact paritySec_entries c b x hx
  have hz : ∀ r, r < c.m → dot (c.H.getD r []) e % 2 = 0 := fun r hr =>
    dot_H_encBlock c W b hb r hr
  rw [decodeBlock]
  simp only [syndrome_flip c W e j hlen hebin hj hz]
  rw [if_pos (any_ne_zero_eq_true _ (H_col_nonzero c W j hj)),
    syndromeLookup_col c W j hj]
  have hjE : j < e.length := by omega
  have hset : (e.set j (1 - e.getD j 0)).set j
      (1 - (e.set j (1 - e.getD j 0)).getD j 0) = e := by
    rw [getD_set_self e j _ 0 hjE]
    have hej : e.getD j 0 < 2 := getD_lt_two e hebin j
    rw [show 1 - (1 - e.getD j 0) = e.getD j 0 from by omega, List.set_set, set_getD_self]
  show (List.take c.k ((e.set j (1 - e.getD j 0)).set j
      (1 - (e.set j (1 - e.getD j 0)).getD j 0)), 1) = (b, 1)
  rw [hset, he, ← hb, List.take_left]

theorem applyPadding_eq_append (k : Nat) (l : List Nat) :
    ∃ pad, applyPadding k l = l ++ List.replicate pad 0 := by
  unfold applyPadding
  split
  · exact ⟨k - l.length % k, rfl⟩
  · exact ⟨0, by simp⟩

theorem applyPadding_dvd (k : Nat) (hk : 0 < k) (l : List Nat) :
    ∃ B, (applyPadding k l).length = B * k := by
  have hdm := Nat.div_add_mod l.length k
  have hlt : l.length % k < k := Nat.mod_lt _ hk
  unfold applyPadding
  split
  · refine ⟨l.length / k + 1, ?_⟩
    rw [List.length_append, List.length_replicate]
    have hexp : (l.length / k + 1) * k = k * (l.length / k) + k := by ring
    omega
  · refine ⟨l.length / k, ?_⟩
    next h =>
      have h0 : l.length % k = 0 := by omega
      have hexp : l.length / k * k = k * (l.length / k) := by ring
      omega

theorem applyPadding_entries (k : Nat) (l : List Nat) (hl : ∀ x ∈ l, x < 2) :
    ∀ x ∈ applyPadding k l, x < 2 := by
  obtain ⟨pad, hpad⟩ := applyPadding_eq_append k l
  rw [hpad]
  intro x hx
  rcases List.mem_append.mp hx with hx | hx
  · exact hl x hx
  · rw [List.eq_of_mem_replicate hx]; omega

theorem applyPadding_take (k : Nat) (l : List Nat) :
    (applyPadding k l).take l.length = l := by
  obtain ⟨pad, hpad⟩ := applyPadding_eq_append k l
  rw [hpad, List.take_left]

theorem block_length (w : Nat) (l : List Nat) (B i : Nat)
    (hlen : l.length = B * w) (hi : i < B) :
    ((l.drop (i * w)).take w).length = w := by
  rw [List.length_take, List.length_drop, hlen]
  have h1 : (i + 1) * w ≤ B * w := Nat.mul_le_mul_right w (by omega)
  have h2 : (i + 1) * w = i * w + w := by ring
  omega

theorem block_entries (w : Nat) (l : List Nat) (i : Nat) (hl : ∀ x ∈ l, x < 2) :
    ∀ x ∈ (l.drop (i * w)).take w, x < 2 := by
  intro x hx
  exact hl x (List.drop_subset _ _ (List.take_subset _ _ hx))

theorem sum_map_zero {α : Type} (l : List α) : (l.map (fun _ => (0 : Nat))).sum = 0 := by
  induction l with
  | nil => rfl
  | cons a l ih => simpa using ih

theorem vecMat_length (v : List Nat) (M : List (List Nat)) (cols : Nat) :
    (vecMat v M cols).length = cols := by
  simp [vecMat]

theorem decodeBlock_fst_length (c : Codec) (W : Wf c) (block : List Nat)
    (hb : block.length = c.n) : (decodeBlock c block).1.length = c.k := by
  have hn := W.hn
  rw [decodeBlock]
  split
  · split
    · simp only [List.length_take, List.length_set]
      omega
    · simp only [List.length_take]
      omega
  · simp only [List.length_take]
    omega

theorem flatten_getD (w : Nat) (L : List (List Nat)) (hL : ∀ b ∈ L, b.length = w) :
    ∀ i j (d : Nat), i < L.length → j < w →
      L.flatten.getD (i * w + j) d = (L.getD i []).getD j d := by
  induction L with
  | nil => intro i j d hi _; simp at hi
  | cons b L ih =>
    intro i j d hi hj
    have hb : b.length = w := hL b (by simp)
    cases i with
    | zero =>
      rw [List.flatten_cons, Nat.zero_mul, Nat.zero_add,
        getD_append_left _ _ _ _ (by omega)]
      rfl
    | succ i =>
      rw [List.flatten_cons,
        show (i + 1) * w + j = b.length + (i * w + j) from by rw [hb]; ring,
        getD_append_right]
      exact ih (fun x hx => hL x (by simp [hx])) i j d (by simpa using hi) hj

theorem decode_encoded_blocks (c : Codec) (W : Wf c) (data : List Nat) (B : Nat)
    (hBlen : data.length = B * c.k) (hdbin : ∀ x ∈ data, x < 2) :
    decode c (((List.range B).map
        (fun i => vecMat ((data.drop (i * c.k)).take c.k) c.G c.n)).flatten)
      = .ok (data.take c.data_length, 0) := by
  set L := (List.range B).map (fun i => vecMat ((data.drop (i * c.k)).take c.k) c.G c.n)
    with hLdef
  have hnpos : 0 < c.n := by have := W.hn; have := W.hk; have := W.hm; omega
  have hLlen : L.length = B := by rw [hLdef, List.length_map, List.length_range]
  have hLrows : ∀ bl ∈ L, bl.length = c.n := by
    intro bl hbl
    rw [hLdef] at hbl
    obtain ⟨i, -, hval⟩ := List.mem_map.mp hbl
    rw [← hval, vecMat_length]
  have hElen : L.flatten.length = B * c.n := by
    rw [flatten_length_const c.n L hLrows, hLlen]
  have hmod : L.flatten.length % c.n = 0 := by rw [hElen]; exact Nat.mul_mod_left B c.n
  have hq : L.flatten.length / c.n = B := by
    rw [hElen]; exact Nat.mul_div_cancel B hnpos
  rw [decode, if_neg (by omega), hq]
  have hres : (List.range B).map
      (fun i => decodeBlock c ((L.flatten.drop (i * c.n)).take c.n))
      = (List.range B).map (fun i => ((data.drop (i * c.k)).take c.k, 0)) := by
    apply List.map_congr_left
    intro i hi
    rw [List.mem_range] at hi
    rw [join_blocks_getD c.n L hLrows i (by omega), hLdef, getD_map_range, if_pos hi]
    exact decodeBlock_encBlock c W _ (block_length c.k data B i hBlen hi)
      (block_entries c.k data i hdbin)
  rw [hres]
  dsimp only
  have hfst : ((List.range B).map
      (fun i => ((data.drop (i * c.k)).take c.k, (0 : Nat)))).map Prod.fst
      = (List.range B).map (fun i => (data.drop (i * c.k)).take c.k) := by
    rw [List.map_map]
    apply List.map_congr_left
    intro i _
    rfl
  have hsnd : ((List.range B).map
      (fun i => ((data.drop (i * c.k)).take c.k, (0 : Nat)))).map Prod.snd
      = (List.range B).map (fun _ => (0 : Nat)) := by
    rw [List.map_map]
    apply List.map_congr_left
    intro i _
    rfl
  rw [hfst, hsnd, join_blocks c.k B data hBlen, sum_map_zero]

theorem decode_encoded_blocks_flip (c : Codec) (W : Wf c) (data : List Nat) (B : Nat)
    (hBlen : data.length = B * c.k) (hdbin : ∀ x ∈ data, x < 2) (t : Nat)
    (ht : t < B * c.n) :
    decode c ((((List.range B).map
        (fun i => vecMat ((data.drop (i * c.k)).take c.k) c.G c.n)).flatten).set t
        (1 - (((List.range B).map
        (fun i => vecMat ((data.drop (i * c.k)).take c.k) c.G c.n)).flatten).getD t 0))
      = .ok (data.take c.data_length, 1) := by
  set L := (List.range B).map (fun i => vecMat ((data.drop (i * c.k)).take c.k) c.G c.n)
    with hLdef
  have hnpos : 0 < c.n := by have := W.hn; have := W.hk; have := W.hm; omega
  have hLlen : L.length = B := by rw [hLdef, List.length_map, List.length_range]
  have hLrows : ∀ bl ∈ L, bl.length = c.n := by
    intro bl hbl
    rw [hLdef] at hbl
    obtain ⟨i, -, hval⟩ := List.mem_map.mp hbl
    rw [← hval, vecMat_length]
  have hi0 : t / c.n < B := (Nat.div_lt_iff_lt_mul hnpos).mpr ht
  have hj : t % c.n < c.n := Nat.mod_lt _ hnpos
  have ht_eq : t = t / c.n * c.n + t % c.n := by
    have h1 := Nat.div_add_mod t c.n
    have h2 : t / c.n * c.n = c.n * (t / c.n) := Nat.mul_comm _ _
    omega
  have hEget : L.flatten.getD t 0 = (L.getD (t / c.n) []).getD (t % c.n) 0 := by
    conv_lhs => rw [ht_eq]
    exact flatten_getD c.n L hLrows _ _ 0 (by omega) hj
  have hset : L.flatten.set t (1 - L.flatten.getD t 0)
      = (L.set (t / c.n) ((L.getD (t / c.n) []).set (t % c.n)
          (1 - (L.getD (t / c.n) []).getD (t % c.n) 0))).flatten := by
    have hsjb := set_join_blocks c.n L hLrows (t / c.n) (t % c.n)
      (1 - (L.getD (t / c.n) []).getD (t % c.n) 0) (by omega) hj
    rw [← ht_eq] at hsjb
    rw [hEget]
    exact hsjb
  rw [hset]
  set L' := L.set (t / c.n) ((L.getD (t / c.n) []).set (t % c.n)
      (1 - (L.getD (t / c.n) []).getD (t % c.n) 0)) with hLupd
  have hL'len : L'.length = B := by rw [hLupd, List.length_set, hLlen]
  have hL'rows : ∀ bl ∈ L', bl.length = c.n := by
    intro bl hbl
    rcases List.mem_or_eq_of_mem_set hbl with hbl | hbl
    · exact hLrows bl hbl
    · rw [hbl, List.length_set]
      exact hLrows _ (getD_mem_of_lt _ _ _ (by omega))
  have hE'len : L'.flatten.length = B * c.n := by
    rw [flatten_length_const c.n L' hL'rows, hL'len]
  have hmod : L'.flatten.length % c.n = 0 := by rw [hE'len]; exact Nat.mul_mod_left B c.n
  have hq : L'.flatten.length / c.n = B := by
    rw [hE'len]; exact Nat.mul_div_cancel B hnpos
  rw [decode, if_neg (by omega), hq]
  have hblk : ∀ i, i < B →
      L.getD i [] = vecMat ((data.drop (i * c.k)).take c.k) c.G c.n := by
    intro i hi
    rw [hLdef, getD_map_range, if_pos hi]
  have hres : (List.range B).map
      (fun i => decodeBlock c ((L'.flatten.drop (i * c.n)).take c.n))
      = (List.range B).map (fun i =>
          ((data.drop (i * c.k)).take c.k, if i = t / c.n then 1 else 0)) := by
    apply List.map_congr_left
    intro i hi
    rw [List.mem_range] at hi
    rw [join_blocks_getD c.n L' hL'rows i (by omega)]
    by_cases hii : i = t / c.n
    · subst hii
      rw [hLupd, getD_set_self L _ _ [] (by omega), if_pos rfl, hblk _ hi,
        vecMat_buildG c W _ (block_length c.k data B _ hBlen hi)
          (block_entries c.k data _ hdbin)]
      exact decodeBlock_flip c W _ (block_length c.k data B _ hBlen hi)
        (block_entries c.k data _ hdbin) _ hj
    · rw [hLupd, getD_set_ne L _ i _ [] (fun h => hii h.symm), if_neg hii, hblk i hi]
      exact decodeBlock_encBlock c W _ (block_length c.k data B i hBlen hi)
        (block_entries c.k data i hdbin)
  rw [hres]
  dsimp only
  have hfst : ((List.range B).map (fun i =>
      ((data.drop (i * c.k)).take c.k, if i = t / c.n then (1 : Nat) else 0))).map Prod.fst
      = (List.range B).map (fun i => (data.drop (i * c.k)).take c.k) := by
    rw [List.map_map]
    apply List.map_congr_left
    intro i _
    rfl
  have hsnd : ((List.range B).map (fun i =>
      ((data.drop (i * c.k)).take c.k, if i = t / c.n then (1 : Nat) else 0))).map Prod.snd
      = (List.range B).map (fun i => if i = t / c.n then (1 : Nat) else 0) := by
    rw [List.map_map]
    apply List.map_congr_left
    intro i _
    rfl
  rw [hfst, hsnd, join_blocks c.k B data hBlen,
    sum_map_if_nodup_mem (List.range B) (t / c.n) (List.nodup_range _)
      (List.mem_range.mpr hi0)]

theorem wf_update_data_length (c : Codec) (W : Wf c) (L : Nat) :
    Wf {c with data_length := L} :=
  ⟨W.hk, W.hm, W.hn, W.hPlen, W.hProws, W.hPnodup, W.hPeye, W.hPnz, W.hH, W.hG⟩

/-- Claim C1: for every `(n, k)` accepted by the constructor and every 0/1 bit
sequence, decoding the encoded stream (with the `data_length` recorded on the
codec by `encode` used for truncation) returns the original bits with zero
corrected errors. -/
theorem hamming_encode_decode_roundtrip (n k : Nat) (c : Codec) (bits : List Nat)
    (h : init n k = .ok c) (hbits : ∀ x ∈ bits, x = 0 ∨ x = 1) :
    decode (encode c bits).1 (encode c bits).2 = .ok (bits, 0) := by
  have W : Wf c := init_ok_wf h
  have hbin : ∀ x ∈ bits, x < 2 := fun x hx => by rcases hbits x hx with h' | h' <;> omega
  have W' : Wf {c with data_length := bits.length} := wf_update_data_length c W _
  obtain ⟨B, hB⟩ := applyPadding_dvd c.k W.hk bits
  have hdbin := applyPadding_entries c.k bits hbin
  have h2 : (encode c bits).2 = ((List.range B).map
      (fun i => vecMat (((applyPadding c.k bits).drop (i * c.k)).take c.k) c.G c.n)).flatten := by
    show ((List.range ((applyPadding c.k bits).length / c.k)).map
        (fun i => vecMat (((applyPadding c.k bits).drop (i * c.k)).take c.k) c.G c.n)).flatten = _
    rw [hB, Nat.mul_div_cancel B W.hk]
  have h3 := decode_encoded_blocks {c with data_length := bits.length} W'
    (applyPadding c.k bits) B hB hdbin
  rw [show (applyPadding c.k bits).take
      (({c with data_length := bits.length} : Codec).data_length) = bits from
    applyPadding_take c.k bits] at h3
  rw [show (encode c bits).1 = {c with data_length := bits.length} from rfl, h2]
  exact h3

/-- Claim C2: flipping exactly one bit of the encoded stream and decoding (with
the recorded original length) recovers the original bits and reports exactly
one corrected error. -/
theorem hamming_single_error_correction (n k : Nat) (c : Codec) (bits : List Nat)
    (t : Nat) (h : init n k = .ok c) (hbits : ∀ x ∈ bits, x = 0 ∨ x = 1)
    (ht : t < (encode c bits).2.length) :
    decode (encode c bits).1
        ((encode c bits).2.set t (1 - (encode c bits).2.getD t 0))
      = .ok (bits, 1) := by
  have W : Wf c := init_ok_wf h
  have hbin : ∀ x ∈ bits, x < 2 := fun x hx => by rcases hbits x hx with h' | h' <;> omega
  have W' : Wf {c with data_length := bits.length} := wf_update_data_length c W _
  obtain ⟨B, hB⟩ := applyPadding_dvd c.k W.hk bits
  have hdbin := applyPadding_entries c.k bits hbin
  have h2 : (encode c bits).2 = ((List.range B).map
      (fun i => vecMat (((applyPadding c.k bits).drop (i * c.k)).take c.k) c.G c.n)).flatten := by
    show ((List.range ((applyPadding c.k bits).length / c.k)).map
        (fun i => vecMat (((applyPadding c.k bits).drop (i * c.k)).take c.k) c.G c.n)).flatten = _
    rw [hB, Nat.mul_div_cancel B W.hk]
  have hLrows : ∀ bl ∈ (List.range B).map
      (fun i => vecMat (((applyPadding c.k bits).drop (i * c.k)).take c.k) c.G c.n),
      bl.length = c.n := by
    intro bl hbl
    obtain ⟨i, -, hval⟩ := List.mem_map.mp hbl
    rw [← hval, vecMat_length]
  have htB : t < B * c.n := by
    rw [h2] at ht
    rwa [flatten_length_const c.n _ hLrows, List.length_map, List.length_range] at ht
  have h3 := decode_encoded_blocks_flip {c with data_length := bits.length} W'
    (applyPadding c.k bits) B hB hdbin t htB
  rw [show (applyPadding c.k bits).take
      (({c with data_length := bits.length} : Codec).data_length) = bits from
    applyPadding_take c.k bits] at h3
  rw [show (encode c bits).1 = {c with data_length := bits.length} from rfl, h2]
  exact h3

theorem decode_length_general (c : Codec) (W : Wf c) (received : List Nat)
    (hmod : received.length % c.n = 0)
    (hd : c.k * (received.length / c.n) < c.data_length) :
    ∃ out cnt, decode c received = .ok (out, cnt) ∧
      out.length = c.k * (received.length / c.n) ∧ out.length < c.data_length := by
  have hnpos : 0 < c.n := by have := W.hn; have := W.hk; have := W.hm; omega
  have hlen : received.length = received.length / c.n * c.n := by
    have h1 := Nat.div_add_mod received.length c.n
    have h2 : received.length / c.n * c.n = c.n * (received.length / c.n) :=
      Nat.mul_comm _ _
    omega
  rw [decode, if_neg (by omega)]
  refine ⟨_, _, rfl, ?_, ?_⟩
  · have hrows : ∀ x ∈ ((List.range (received.length / c.n)).map
        (fun i => decodeBlock c ((received.drop (i * c.n)).take c.n))).map Prod.fst,
        x.length = c.k := by
      intro x hx
      obtain ⟨p, hp, hval⟩ := List.mem_map.mp hx
      obtain ⟨i, hi, hpi⟩ := List.mem_map.mp hp
      rw [List.mem_range] at hi
      rw [← hval, ← hpi]
      exact decodeBlock_fst_length c W _ (block_length c.n received _ i hlen hi)
    rw [List.length_take, flatten_length_const c.k _ hrows, List.length_map,
      List.length_map, List.length_range]
    have : received.length / c.n * c.k = c.k * (received.length / c.n) := Nat.mul_comm _ _
    omega
  · have hrows : ∀ x ∈ ((List.range (received.length / c.n)).map
        (fun i => decodeBlock c ((received.drop (i * c.n)).take c.n))).map Prod.fst,
        x.length = c.k := by
      intro x hx
      obtain ⟨p, hp, hval⟩ := List.mem_map.mp hx
      obtain ⟨i, hi, hpi⟩ := List.mem_map.mp hp
      rw [List.mem_range] at hi
      rw [← hval, ← hpi]
      exact decodeBlock_fst_length c W _ (block_length c.n received _ i hlen hi)
    rw [List.length_take, flatten_length_const c.k _ hrows, List.length_map,
      List.length_map, List.length_range]
    have : received.length / c.n * c.k = c.k * (received.length / c.n) := Nat.mul_comm _ _
    omega

/-- Claim C9: decode never cross-checks the recorded original length against
the number of decoded blocks; with a recorded length larger than the total
decoded bit count it silently returns the shorter result. -/
theorem hamming_decode_no_length_validation (n k : Nat) (c : Codec)
    (received : List Nat) (d : Nat) (h : init n k = .ok c)
    (hmod : received.length % c.n = 0)
    (hd : c.k * (received.length / c.n) < d) :
    ∃ out cnt, decode {c with data_length := d} received = .ok (out, cnt) ∧
      out.length = c.k * (received.length / c.n) ∧ out.length < d := by
  have W := init_ok_wf h
  exact decode_length_general {c with data_length := d}
    (wf_update_data_length c W d) received hmod hd

theorem checkValidGH_true (k m : Nat) (P : List (List Nat)) (hP : P.length = k)
    (hrows : ∀ v ∈ P, v.length = m) :
    checkValidGH (buildG k P) (buildH m P) = true := by
  rw [checkValidGH, List.all_eq_true]
  intro row hrow
  rw [List.all_eq_true]
  intro x hx
  obtain ⟨grow, hgrow, hrow_eq⟩ := List.mem_map.mp hrow
  rw [← hrow_eq] at hx
  obtain ⟨hrowH, hmemH, hx_eq⟩ := List.mem_map.mp hx
  obtain ⟨i, hiR, hgrow_eq⟩ := List.mem_map.mp hgrow
  rw [List.mem_range] at hiR
  obtain ⟨r, hrR, hrowH_eq⟩ := List.mem_map.mp hmemH
  rw [List.mem_range] at hrR
  rw [← hx_eq, ← hgrow_eq, ← hrowH_eq,
    dot_append _ _ _ _ (by rw [idRow_length, colOf_length, hP]),
    dot_idRow_left k i (colOf P r) hiR (by rw [colOf_length, hP]),
    dot_idRow_right m r (P.getD i []) hrR
      (by rw [hrows _ (getD_mem_of_lt _ _ _ (by omega))]),
    colOf_getD P r i (by omega)]
  simp only [beq_iff_eq]
  omega

theorem init_ok_of (n k : Nat) (h0 : 0 < k) (h1 : k < n)
    (h2 : 2 ^ (n - k) - (n - k) - 1 = k) :
    init n k = .ok ⟨n, k, n - k, nonZeroVectors (n - k),
      buildH (n - k) (nonZeroVectors (n - k)), buildG k (nonZeroVectors (n - k)), 0⟩ := by
  have hlen : (nonZeroVectors (n - k)).length = k := by
    rw [nonZeroVectors_length]; omega
  have hne : (nonZeroVectors (n - k)).isEmpty = false := by
    cases hnz : nonZeroVectors (n - k) with
    | nil => rw [hnz] at hlen; simp at hlen; omega
    | cons a l => rfl
  have hrows : ∀ v ∈ nonZeroVectors (n - k), v.length = n - k := fun v hv =>
    (mem_nonZeroVectors _ v hv).1
  have hGH := checkValidGH_true k (n - k) (nonZeroVectors (n - k)) hlen hrows
  simp only [init]
  rw [if_pos h1, if_neg (by rw [hne]; simp), if_pos hlen, if_pos hGH]

/-- Claim C4 (amended): the constructor succeeds exactly when `n > k`, `k > 0`
and `2^(n-k) - (n-k) - 1 = k` (the selection loop must produce exactly `k`
rows for `np.hstack((np.eye(k), P))` to be well-shaped, and a nonempty `P` for
`np.hstack((P.T, I_m))`); for other parameters it fails, though with numpy
shape errors rather than the `n ≤ k` assertion. -/
theorem init_ok_iff (n k : Nat) :
    (∃ c, init n k = .ok c) ↔ (k < n ∧ 0 < k ∧ 2 ^ (n - k) - (n - k) - 1 = k) := by
  constructor
  · rintro ⟨c, hc⟩
    obtain ⟨-, -, -, hP, -, -, -, hkn, hPlen, hPne⟩ := init_ok_fields hc
    have hlen : (nonZeroVectors (n - k)).length = 2 ^ (n - k) - 1 - (n - k) :=
      nonZeroVectors_length _
    have hpos : 0 < c.P.length := List.length_pos.mpr hPne
    rw [hP] at hpos hPlen
    refine ⟨hkn, by omega, by omega⟩
  · rintro ⟨h1, h0, h2⟩
    exact ⟨_, init_ok_of n k h0 h1 h2⟩

/-- Claim C4 counterexample: `(n, k) = (6, 2)` satisfies `n > k` and the
claimed feasibility bound `2^(n-k) - (n-k) - 1 ≥ k` (11 ≥ 2), yet the
constructor fails: `_get_non_zero_vectors` collects 11 rows and
`np.hstack((np.eye(2), P))` in `_build_G` cannot stack a 2-row identity with
an 11-row matrix. -/
theorem init_error_at_6_2 :
    (2 : Nat) < 6 ∧ 2 ≤ 2 ^ (6 - 2) - (6 - 2) - 1 ∧
      init 6 2 = .error .shapeMismatch := by decide

/-- Claim C3 (amended): under the exact-size condition
`2^(n-k) - (n-k) - 1 = k` (with `k > 0`), construction succeeds with the
stated shapes and `G · Hᵀ ≡ 0 (mod 2)`; the construction-time assertion
passes. -/
theorem hamming_construction (n k : Nat) (h0 : 0 < k) (h1 : k < n)
    (h2 : 2 ^ (n - k) - (n - k) - 1 = k) :
    ∃ c, init n k = .ok c ∧ c.P.length = k ∧ (∀ row ∈ c.P, row.length = n - k) ∧
      c.G.length = k ∧ (∀ row ∈ c.G, row.length = n) ∧
      c.H.length = n - k ∧ (∀ row ∈ c.H, row.length = n) ∧
      checkValidGH c.G c.H = true := by
  have hlen : (nonZeroVectors (n - k)).length = k := by
    rw [nonZeroVectors_length]; omega
  have hrows : ∀ v ∈ nonZeroVectors (n - k), v.length = n - k := fun v hv =>
    (mem_nonZeroVectors _ v hv).1
  refine ⟨_, init_ok_of n k h0 h1 h2, hlen, hrows, buildG_length k _, ?_, buildH_length _ _,
    ?_, checkValidGH_true k (n - k) (nonZeroVectors (n - k)) hlen hrows⟩
  · intro row hrow
    obtain ⟨i, hi, hval⟩ := List.mem_map.mp hrow
    rw [List.mem_range] at hi
    rw [← hval, List.length_append, idRow_length,
      hrows _ (getD_mem_of_lt _ _ _ (by omega))]
    omega
  · intro row hrow
    obtain ⟨r, hr, hval⟩ := List.mem_map.mp hrow
    rw [List.mem_range] at hr
    rw [← hval, List.length_append, idRow_length, colOf_length, hlen]
    omega

/-- Claim C3 counterexample: `(n, k) = (5, 2)` satisfies `n > k` and the
claimed bound `2^(n-k) - (n-k) - 1 ≥ k` (4 ≥ 2), yet construction fails with
a numpy shape error in `_build_G` because `P` has 4 rows, not 2. -/
theorem init_error_at_5_2 :
    (2 : Nat) < 5 ∧ 2 ≤ 2 ^ (5 - 2) - (5 - 2) - 1 ∧
      init 5 2 = .error .shapeMismatch := by decide

theorem hamming_construction_witness :
    0 < 4 ∧ 4 < 7 ∧ 2 ^ (7 - 4) - (7 - 4) - 1 = 4 ∧
      (∃ c, init 7 4 = .ok c ∧ c.P.length = 4 ∧ (∀ row ∈ c.P, row.length = 7 - 4) ∧
        c.G.length = 4 ∧ (∀ row ∈ c.G, row.length = 7) ∧
        c.H.length = 7 - 4 ∧ (∀ row ∈ c.H, row.length = 7) ∧
        checkValidGH c.G c.H = true) :=
  ⟨by decide, by decide, by decide,
    hamming_construction 7 4 (by decide) (by decide) (by decide)⟩

/-- The codec the constructor returns for `Hamming(k=4, n=7)`, the default
used by `Emisor.py` and `Receptor.py`. -/
def codec74 : Codec :=
  ⟨7, 4, 3, nonZeroVectors 3, buildH 3 (nonZeroVectors 3), buildG 4 (nonZeroVectors 3), 0⟩

theorem hamming_encode_decode_roundtrip_witness :
    init 7 4 = .ok codec74 ∧ (∀ x ∈ [1, 0, 1, 1], x = 0 ∨ x = 1) ∧
      decode (encode codec74 [1, 0, 1, 1]).1 (encode codec74 [1, 0, 1, 1]).2
        = .ok ([1, 0, 1, 1], 0) :=
  ⟨by decide, by decide,
    hamming_encode_decode_roundtrip 7 4 codec74 [1, 0, 1, 1] (by decide) (by decide)⟩

theorem hamming_single_error_correction_witness :
    applyPadding 4 [1, 0, 1, 1] = [1, 0, 1, 1] ∧
      (3 : Nat) < (encode codec74 [1, 0, 1, 1]).2.length ∧
      decode (encode codec74 [1, 0, 1, 1]).1
          ((encode codec74 [1, 0, 1, 1]).2.set 3
            (1 - (encode codec74 [1, 0, 1, 1]).2.getD 3 0))
        = .ok ([1, 0, 1, 1], 1) :=
  ⟨by decide, by decide,
    hamming_single_error_correction 7 4 codec74 [1, 0, 1, 1] 3 (by decide) (by decide)
      (by decide)⟩

theorem hamming_decode_no_length_validation_witness :
    ([0, 0, 0, 0, 0, 0, 0] : List Nat).length % codec74.n = 0 ∧
      codec74.k * (([0, 0, 0, 0, 0, 0, 0] : List Nat).length / codec74.n) < 10 ∧
      ∃ out cnt, decode {codec74 with data_length := 10} [0, 0, 0, 0, 0, 0, 0]
        = .ok (out, cnt) ∧
        out.length = codec74.k * (([0, 0, 0, 0, 0, 0, 0] : List Nat).length / codec74.n) ∧
        out.length < 10 :=
  ⟨by decide, by decide,
    hamming_decode_no_length_validation 7 4 codec74 [0, 0, 0, 0, 0, 0, 0] 10
      (by decide) (by decide) (by decide)⟩

/-- A heap of numpy integer buffers; an id is an index into the heap.  Used to
make explicit which buffer each statement of `Hamming.decode` writes. -/
structure NpStore where
  arrays : List (List Nat)
deriving DecidableEq

/-- `np.array(x)` with numpy's default `copy=True`: allocate a fresh buffer
holding a copy of the contents, returning the new id. -/
def npAlloc (s : NpStore) (contents : List Nat) : NpStore × Nat :=
  (⟨s.arrays ++ [contents]⟩, s.arrays.length)

/-- Read a whole buffer. -/
def npRead (s : NpStore) (id : Nat) : List Nat := s.arrays.getD id []

/-- `arr[idx] = val` on buffer `id`. -/
def npWrite (s : NpStore) (id idx val : Nat) : NpStore :=
  ⟨s.arrays.set id ((s.arrays.getD id []).set idx val)⟩

/-- `Hamming.decode` with buffers explicit: `received = np.array(received_bits)`
copies the caller's buffer into a fresh one; each `block` is a slice VIEW of
`received` at offset `i * n`, so the correcting write
`block[error_pos] = 1 - block[error_pos]` lands in `received` at
`i * n + error_pos`, never in the caller's buffer. -/
def decodeStore (c : Codec) (s0 : NpStore) (receivedId : Nat) :
    NpStore × Except String (List Nat × Nat) :=
  let alloc := npAlloc s0 (npRead s0 receivedId)
  let s1 := alloc.1
  let rid := alloc.2
  if (npRead s1 rid).length % c.n ≠ 0 then
    (s1, .error ("Received data length must be a multiple of " ++ toString c.n))
  else
    let nBlocks := (npRead s1 rid).length / c.n
    let final := (List.range nBlocks).foldl
      (fun (acc : NpStore × List Nat × Nat) i =>
        let s := acc.1
        let block := ((npRead s rid).drop (i * c.n)).take c.n
        let syndrome := c.H.map (fun row => dot row block % 2)
        if syndrome.any (fun x => x != 0) then
          match syndromeLookup c.H c.n syndrome with
          | some pos =>
            let s' := npWrite s rid (i * c.n + pos) (1 - block.getD pos 0)
            let block' := ((npRead s' rid).drop (i * c.n)).take c.n
            (s', acc.2.1 ++ block'.take c.k, acc.2.2 + 1)
          | none => (s, acc.2.1 ++ block.take c.k, acc.2.2)
        else (s, acc.2.1 ++ block.take c.k, acc.2.2)) (s1, ([], 0))
    (final.1, .ok ((final.2.1).take c.data_length, final.2.2))

theorem foldl_invariant {α β : Type} (f : β → α → β) (P : β → Prop)
    (hstep : ∀ b a, P b → P (f b a)) :
    ∀ (l : List α) (b : β), P b → P (l.foldl f b) := by
  intro l
  induction l with
  | nil => intro b hb; exact hb
  | cons a l ih => intro b hb; exact ih (f b a) (hstep b a hb)

/-- Claim C10: `Hamming.decode` never mutates the caller's `received_bits`
buffer: the input is copied by `np.array` before syndrome computation and the
correcting flips are applied only to that internal copy, so after a
successful or failing call the caller's buffer is element-wise unchanged. -/
theorem decodeStore_frames (c : Codec) (s0 : NpStore) (receivedId : Nat)
    (h : receivedId < s0.arrays.length) :
    npRead (decodeStore c s0 receivedId).1 receivedId = npRead s0 receivedId := by
  unfold decodeStore
  dsimp only
  have hr1 : npRead (npAlloc s0 (npRead s0 receivedId)).1 receivedId
      = npRead s0 receivedId := by
    unfold npRead npAlloc
    exact getD_append_left _ _ _ _ h
  split
  · exact hr1
  · refine foldl_invariant _ (fun acc : NpStore × List Nat × Nat =>
      npRead acc.1 receivedId = npRead s0 receivedId) ?_ _ _ hr1
    intro b a hP
    dsimp only
    split
    · split
      · unfold npRead npWrite
        rw [getD_set_ne _ _ _ _ _ (by unfold npAlloc; dsimp only; omega)]
        exact hP
      · exact hP
    · exact hP

theorem decodeStore_frames_witness :
    (0 : Nat) < (NpStore.mk [[1, 1, 0, 1, 0, 0, 1]]).arrays.length ∧
      npRead (decodeStore codec74 ⟨[[1, 1, 0, 1, 0, 0, 1]]⟩ 0).1 0
        = npRead ⟨[[1, 1, 0, 1, 0, 0, 1]]⟩ 0 :=
  ⟨by decide, decodeStore_frames codec74 ⟨[[1, 1, 0, 1, 0, 0, 1]]⟩ 0 (by decide)⟩

example : (init 7 4).toOption.isSome = true := by decide

example :
    (init 7 4).toOption.map
      (fun c => decode (encode c [1, 0, 1, 1]).1 (encode c [1, 0, 1, 1]).2)
      = some (.ok ([1, 0, 1, 1], 0)) := by decide

example :
    (init 7 4).toOption.map
      (fun c =>
        let c' := (encode c [1, 0, 1, 1]).1
        let e := (encode c [1, 0, 1, 1]).2
        decode c' (e.set 3 (1 - e.getD 3 0)))
      = some (.ok ([1, 0, 1, 1], 1)) := by decide

example : init 6 2 = .error .shapeMismatch := by decide
example : init 5 2 = .error .shapeMismatch := by decide
example : init 1 0 = .error .shapeMismatch := by decide
example : init 4 5 = .error .invalidParameters := by decide
example : (init 3 1).toOption.isSome = true := by decide
example : (init 15 11).toOption.isSome = true := by decide

end Hamming

namespace Huffman

/-- `bits_to_bytes`: the '0'/'1' characters of the bit string as 0/1 naturals;
pads with `(8 - len % 8) % 8` zeros, chunks into groups of 8 and converts each
chunk with `int(chunk, 2)`; returns the byte list and the padding count. -/
def bits_to_bytes (bits : List Nat) : List Nat × Nat :=
  if bits.isEmpty then ([], 0)
  else
    let padding := (8 - bits.length % 8) % 8
    let padded := bits ++ List.replicate padding 0
    ((List.range (padded.length / 8)).map
      (fun i => valBE ((padded.drop (i * 8)).take 8)), padding)

/-- `bytes_to_bits`: each byte rendered as `f"{byte:08b}"` (8 binary digits
for byte values below 256), concatenated; then `bits = bits[:-padding]` when
`padding` is nonzero.  Python's negative-stop slicing clamps at the start, so
a `padding` larger than the string yields `""`; `List.take` with truncated
subtraction models that exactly. -/
def bytes_to_bits (data : List Nat) (padding : Nat) : List Nat :=
  let bits := (data.map (binVec 8)).flatten
  if padding ≠ 0 then bits.take (bits.length - padding) else bits

/-- Claim C6: packing a 0/1 bit sequence into bytes and unpacking with the
returned padding count restores the original sequence exactly, for every
length including 0. -/
theorem packer_roundtrip (bits : List Nat) (hbits : ∀ x ∈ bits, x = 0 ∨ x = 1) :
    bytes_to_bits (bits_to_bytes bits).1 (bits_to_bytes bits).2 = bits := by
  have hbin : ∀ x ∈ bits, x < 2 := fun x hx => by rcases hbits x hx with h' | h' <;> omega
  cases bits with
  | nil => rfl
  | cons b bs =>
    set bl := b :: bs with hbl
    have hne : bl.isEmpty = false := rfl
    rw [bits_to_bytes, if_neg (by rw [hne]; simp)]
    dsimp only
    set padding := (8 - bl.length % 8) % 8 with hpad
    set padded := bl ++ List.replicate padding 0 with hpadded
    have hplen : padded.length = bl.length + padding := by
      rw [hpadded, List.length_append, List.length_replicate]
    have hdvd : padded.length % 8 = 0 := by
      rw [hplen, hpad]; omega
    have hB : padded.length = (padded.length / 8) * 8 := by
      have := Nat.div_add_mod padded.length 8
      omega
    have hpad_entries : ∀ x ∈ padded, x < 2 := by
      intro x hx
      rcases List.mem_append.mp hx with hx | hx
      · exact hbin x hx
      · rw [List.eq_of_mem_replicate hx]; omega
    rw [bytes_to_bits]
    have hmap : ((List.range (padded.length / 8)).map
        (fun i => valBE ((padded.drop (i * 8)).take 8))).map (binVec 8)
        = (List.range (padded.length / 8)).map (fun i => (padded.drop (i * 8)).take 8) := by
      rw [List.map_map]
      apply List.map_congr_left
      intro i hi
      rw [List.mem_range] at hi
      simp only [Function.comp]
      have hlen8 : ((padded.drop (i * 8)).take 8).length = 8 :=
        Hamming.block_length 8 padded (padded.length / 8) i hB hi
      have hrt := binVec_valBE ((padded.drop (i * 8)).take 8)
        (Hamming.block_entries 8 padded i hpad_entries)
      rwa [hlen8] at hrt
    rw [hmap, join_blocks 8 (padded.length / 8) padded hB]
    by_cases hp : padding = 0
    · rw [if_neg (by omega), hpadded, hp, List.replicate_zero, List.append_nil]
    · rw [if_pos hp, hplen, hpadded,
        show bl.length + padding - padding = bl.length from by omega, List.take_left]

theorem packer_roundtrip_witness :
    (∀ x ∈ [1, 0, 1], x = 0 ∨ x = 1) ∧
      bytes_to_bits (bits_to_bytes [1, 0, 1]).1 (bits_to_bytes [1, 0, 1]).2 = [1, 0, 1] :=
  ⟨by decide, packer_roundtrip [1, 0, 1] (by decide)⟩

/-- Claim C7 counterexample: one byte and `padding_count = 9 > 8` bits: the
code raises no error and returns a value (the empty bit string), because
`bits[:-9]` on an 8-character string is `""`. -/
theorem bytes_to_bits_no_error_at_9 :
    9 > 8 * ([0] : List Nat).length ∧ bytes_to_bits [0] 9 = [] := by decide

/-- Claim C7 (amended): when `padding_count` exceeds the total bit count,
`bytes_to_bits` raises nothing and silently returns the empty sequence. -/
theorem bytes_to_bits_overlong_padding (data : List Nat) (padding : Nat)
    (h : 8 * data.length < padding) : bytes_to_bits data padding = [] := by
  rw [bytes_to_bits]
  have hlen : ((data.map (binVec 8)).flatten).length = data.length * 8 := by
    rw [flatten_length_const 8 _ (by
      intro bl hbl
      obtain ⟨x, -, hv⟩ := List.mem_map.mp hbl
      rw [← hv, binVec_length]), List.length_map]
  rw [if_pos (by omega), hlen,
    show data.length * 8 - padding = 0 from by omega, List.take_zero]

theorem bytes_to_bits_overlong_padding_witness :
    8 * ([255] : List Nat).length < 17 ∧ bytes_to_bits [255] 17 = [] :=
  ⟨by decide, bytes_to_bits_overlong_padding [255] 17 (by decide)⟩

/-- `_Node`: `symbol` is `None` for internal nodes; `left`/`right` may be
absent.  `__lt__` compares frequencies only. -/
inductive HTree (α : Type) where
  | node (symbol : Option α) (freq : Nat) (left : Option (HTree α))
      (right : Option (HTree α))

def HTree.freq {α : Type} : HTree α → Nat
  | .node _ f _ _ => f

/-- `_Node.__lt__`: `self.freq < other.freq`, the comparison `heapq` uses. -/
def huffLt {α : Type} (a b : HTree α) : Bool := decide (a.freq < b.freq)

/-- CPython `heapq._siftdown`, written with an explicit iteration budget so
that it evaluates by kernel reduction; `pos` strictly decreases each turn of
the `while`, so a budget of `pos` (supplied by `siftdownLoop`) is never
exhausted before the loop condition `pos > startpos` fails. -/
def siftdownFuel {T : Type} (lt : T → T → Bool) (startpos : Nat) (newitem : T) :
    Nat → List T → Nat → List T
  | 0, heap, pos => heap.set pos newitem
  | fuel + 1, heap, pos =>
    if startpos < pos then
      let parentpos := (pos - 1) / 2
      let parent := heap.getD parentpos newitem
      if lt newitem parent then
        siftdownFuel lt startpos newitem fuel (heap.set pos parent) parentpos
      else heap.set pos newitem
    else heap.set pos newitem

/-- `heapq._siftdown(heap, startpos, pos)`: move `newitem` from `pos` toward
`startpos`, shifting larger parents down, then place `newitem`. -/
def siftdownLoop {T : Type} (lt : T → T → Bool) (startpos : Nat) (newitem : T)
    (heap : List T) (pos : Nat) : List T :=
  siftdownFuel lt startpos newitem pos heap pos

/-- CPython `heapq._siftup` with an explicit iteration budget; the hole index
`pos` strictly increases below `heap.length` each turn of the `while`, so a
budget of `heap.length - pos` (supplied by `siftupLoop`) is never exhausted
before the loop condition `childpos < endpos` fails. -/
def siftupFuel {T : Type} (lt : T → T → Bool) (startpos : Nat) (newitem : T) :
    Nat → List T → Nat → List T
  | 0, heap, pos => siftdownLoop lt startpos newitem (heap.set pos newitem) pos
  | fuel + 1, heap, pos =>
    let endpos := heap.length
    let childpos0 := 2 * pos + 1
    if childpos0 < endpos then
      let rightpos := childpos0 + 1
      let childpos := if rightpos < endpos &&
          !(lt (heap.getD childpos0 newitem) (heap.getD rightpos newitem)) then rightpos
        else childpos0
      siftupFuel lt startpos newitem fuel (heap.set pos (heap.getD childpos newitem)) childpos
    else siftdownLoop lt startpos newitem (heap.set pos newitem) pos

/-- `heapq._siftup(heap, pos)`'s loop: bubble the hole at `pos` down to a
leaf, moving the smaller child up each step, then sift `newitem` back down. -/
def siftupLoop {T : Type} (lt : T → T → Bool) (startpos : Nat) (newitem : T)
    (heap : List T) (pos : Nat) : List T :=
  siftupFuel lt startpos newitem (heap.length - pos) heap pos

/-- `heapq._siftup(heap, pos)` reads `newitem = heap[pos]` first. -/
def siftup {T : Type} (lt : T → T → Bool) (heap : List T) (pos : Nat) : List T :=
  match heap[pos]? with
  | none => heap
  | some newitem => siftupLoop lt pos newitem heap pos

/-- `heapq.heappush`: append then sift down from the last slot. -/
def heappush {T : Type} (lt : T → T → Bool) (heap : List T) (item : T) : List T :=
  siftdownLoop lt 0 item (heap ++ [item]) heap.length

/-- `heapq.heappop`: pop the last element; if the heap is still nonempty,
move it to the root and sift up; `none` models the `IndexError` on an empty
heap. -/
def heappop {T : Type} (lt : T → T → Bool) (heap : List T) : Option (T × List T) :=
  match heap.getLast? with
  | none => none
  | some lastelt =>
    let rest := heap.dropLast
    if rest.isEmpty then some (lastelt, [])
    else some (rest.getD 0 lastelt, siftupLoop lt 0 lastelt (rest.set 0 lastelt) 0)

/-- `heapq.heapify`: `for i in reversed(range(n // 2)): _siftup(x, i)`. -/
def heapify {T : Type} (lt : T → T → Bool) (heap : List T) : List T :=
  (List.range (heap.length / 2)).reverse.foldl (fun h i => siftup lt h i) heap

/-- The list coerced to a multiset, for content-preservation statements. -/
def ms {T : Type} (l : List T) : Multiset T := (l : Multiset T)

theorem multiset_set {T : Type} (l : List T) (i : Nat) (a d : T) (hi : i < l.length) :
    ms (l.set i a) + {l.getD i d} = ms l + {a} := by
  induction l generalizing i with
  | nil => simp at hi
  | cons x xs ih =>
    cases i with
    | zero =>
      show (a ::ₘ ms xs) + {x} = (x ::ₘ ms xs) + {a}
      simp only [Multiset.cons_add]
      rw [show ms xs + {x} = x ::ₘ ms xs from by
          rw [add_comm, Multiset.singleton_add],
        show ms xs + {a} = a ::ₘ ms xs from by
          rw [add_comm, Multiset.singleton_add],
        Multiset.cons_swap]
    | succ i =>
      show (x ::ₘ ms (xs.set i a)) + {xs.getD i d} = (x ::ₘ ms xs) + {a}
      simp only [Multiset.cons_add]
      rw [ih i (by simpa using hi)]

theorem siftdownFuel_ms {T : Type} (lt : T → T → Bool) (startpos : Nat) (newitem : T) :
    ∀ (fuel pos : Nat) (heap : List T), pos ≤ fuel → pos < heap.length →
      ms (siftdownFuel lt startpos newitem fuel heap pos) = ms (heap.set pos newitem) := by
  intro fuel
  induction fuel with
  | zero => intro pos heap hle hpos; rfl
  | succ fuel ih =>
    intro pos heap hle hpos
    rw [siftdownFuel]
    split
    next hlt =>
      dsimp only
      split
      next =>
        rw [ih ((pos - 1) / 2) (heap.set pos (heap.getD ((pos - 1) / 2) newitem))
          (by omega) (by rw [List.length_set]; omega)]
        have h1 := multiset_set (heap.set pos (heap.getD ((pos - 1) / 2) newitem))
          ((pos - 1) / 2) newitem newitem (by rw [List.length_set]; omega)
        have h2 := multiset_set heap pos (heap.getD ((pos - 1) / 2) newitem) newitem hpos
        have h3 := multiset_set heap pos newitem newitem hpos
        have h4 : (heap.set pos (heap.getD ((pos - 1) / 2) newitem)).getD ((pos - 1) / 2)
            newitem = heap.getD ((pos - 1) / 2) newitem :=
          getD_set_ne heap pos ((pos - 1) / 2) _ _ (by omega)
        rw [h4] at h1
        have h5 : ms ((heap.set pos (heap.getD ((pos - 1) / 2) newitem)).set
              ((pos - 1) / 2) newitem) + {heap.getD ((pos - 1) / 2) newitem}
              + {heap.getD pos newitem}
            = ms (heap.set pos newitem) + {heap.getD ((pos - 1) / 2) newitem}
              + {heap.getD pos newitem} := by
          rw [h1]
          have : ms (heap.set pos (heap.getD ((pos - 1) / 2) newitem)) + {newitem}
                + {heap.getD pos newitem}
              = (ms (heap.set pos (heap.getD ((pos - 1) / 2) newitem))
                + {heap.getD pos newitem}) + {newitem} := by
            rw [add_assoc, add_assoc, add_comm ({newitem} : Multiset T)]
          rw [this, h2]
          have : ms (heap.set pos newitem) + {heap.getD ((pos - 1) / 2) newitem}
                + {heap.getD pos newitem}
              = (ms (heap.set pos newitem) + {heap.getD pos newitem})
                + {heap.getD ((pos - 1) / 2) newitem} := by
            rw [add_assoc, add_assoc, add_comm ({heap.getD ((pos - 1) / 2) newitem} : Multiset T)]
          rw [this, h3]
          rw [add_assoc, add_assoc, add_comm ({newitem} : Multiset T)]
        exact add_right_cancel (add_right_cancel h5)
      next => rfl
    next => rfl

theorem siftdownLoop_ms {T : Type} (lt : T → T → Bool) (startpos : Nat) (newitem : T)
    (pos : Nat) (heap : List T) (hpos : pos < heap.length) :
    ms (siftdownLoop lt startpos newitem heap pos) = ms (heap.set pos newitem) :=
  siftdownFuel_ms lt startpos newitem pos pos heap (Nat.le_refl _) hpos

theorem siftupFuel_ms {T : Type} (lt : T → T → Bool) (startpos : Nat) (newitem : T) :
    ∀ (fuel pos : Nat) (heap : List T), heap.length - pos ≤ fuel → pos < heap.length →
      ms (siftupFuel lt startpos newitem fuel heap pos) = ms (heap.set pos newitem) := by
  intro fuel
  induction fuel with
  | zero =>
    intro pos heap hfuel hpos
    show ms (siftdownLoop lt startpos newitem (heap.set pos newitem) pos) = _
    rw [siftdownLoop_ms lt startpos newitem pos (heap.set pos newitem)
      (by rw [List.length_set]; omega), List.set_set]
  | succ fuel ih =>
    intro pos heap hfuel hpos
    rw [siftupFuel]
    dsimp only
    split
    next hchild =>
      set childpos := if 2 * pos + 1 + 1 < heap.length &&
          !(lt (heap.getD (2 * pos + 1) newitem) (heap.getD (2 * pos + 1 + 1) newitem))
        then 2 * pos + 1 + 1 else 2 * pos + 1 with hcdef
      have hcp_lt : childpos < heap.length ∧ pos < childpos := by
        rw [hcdef]
        split
        next hcond =>
          rw [Bool.and_eq_true, decide_eq_true_eq] at hcond
          omega
        next => omega
      have hrec := ih childpos (heap.set pos (heap.getD childpos newitem))
        (by rw [List.length_set]; omega) (by rw [List.length_set]; omega)
      rw [hrec]
      have h1 := multiset_set (heap.set pos (heap.getD childpos newitem)) childpos
        newitem newitem (by rw [List.length_set]; omega)
      have h2 := multiset_set heap pos (heap.getD childpos newitem) newitem hpos
      have h3 := multiset_set heap pos newitem newitem hpos
      have h4 : (heap.set pos (heap.getD childpos newitem)).getD childpos newitem
          = heap.getD childpos newitem :=
        getD_set_ne heap pos childpos _ _ (by omega)
      rw [h4] at h1
      have h5 : ms ((heap.set pos (heap.getD childpos newitem)).set childpos newitem)
            + {heap.getD childpos newitem} + {heap.getD pos newitem}
          = ms (heap.set pos newitem) + {heap.getD childpos newitem}
            + {heap.getD pos newitem} := by
        rw [h1]
        have hx : ms (heap.set pos (heap.getD childpos newitem)) + {newitem}
              + {heap.getD pos newitem}
            = (ms (heap.set pos (heap.getD childpos newitem)) + {heap.getD pos newitem})
              + {newitem} := by
          rw [add_assoc, add_assoc, add_comm ({newitem} : Multiset T)]
        rw [hx, h2]
        have hy : ms (heap.set pos newitem) + {heap.getD childpos newitem}
              + {heap.getD pos newitem}
            = (ms (heap.set pos newitem) + {heap.getD pos newitem})
              + {heap.getD childpos newitem} := by
          rw [add_assoc, add_assoc, add_comm ({heap.getD childpos newitem} : Multiset T)]
        rw [hy, h3]
        rw [add_assoc, add_assoc, add_comm ({newitem} : Multiset T)]
      exact add_right_cancel (add_right_cancel h5)
    next =>
      rw [siftdownLoop_ms lt startpos newitem pos (heap.set pos newitem)
        (by rw [List.length_set]; omega), List.set_set]

theorem siftupLoop_ms {T : Type} (lt : T → T → Bool) (startpos : Nat) (newitem : T)
    (pos : Nat) (heap : List T) (hpos : pos < heap.length) :
    ms (siftupLoop lt startpos newitem heap pos) = ms (heap.set pos newitem) :=
  siftupFuel_ms lt startpos newitem (heap.length - pos) pos heap (Nat.le_refl _) hpos

theorem ms_length {T : Type} {l1 l2 : List T} (h : ms l1 = ms l2) :
    l1.length = l2.length := by
  have := congrArg Multiset.card h
  simpa [ms] using this

theorem ms_append {T : Type} (l1 l2 : List T) : ms (l1 ++ l2) = ms l1 + ms l2 := by
  simp [ms]

theorem ms_singleton_comm {T : Type} (s : Multiset T) (x : T) : s + {x} = x ::ₘ s := by
  rw [add_comm, Multiset.singleton_add]

theorem heappush_ms {T : Type} (lt : T → T → Bool) (heap : List T) (item : T) :
    ms (heappush lt heap item) = item ::ₘ ms heap := by
  rw [heappush, siftdownLoop_ms lt 0 item heap.length (heap ++ [item]) (by simp)]
  have hg : (heap ++ [item]).getD heap.length item = item := by
    have := getD_append_right heap [item] 0 item
    simpa using this
  have hset : (heap ++ [item]).set heap.length item = heap ++ [item] := by
    have h0 := set_getD_self (heap ++ [item]) heap.length item
    rw [hg] at h0
    exact h0
  rw [hset, ms_append]
  show ms heap + {item} = item ::ₘ ms heap
  exact ms_singleton_comm _ _

theorem heappush_length {T : Type} (lt : T → T → Bool) (heap : List T) (item : T) :
    (heappush lt heap item).length = heap.length + 1 := by
  have := ms_length (heappush_ms lt heap item)
  simpa [ms] using this

theorem getLast?_eq_dropLast_append {T : Type} (l : List T) (x : T)
    (h : l.getLast? = some x) : l = l.dropLast ++ [x] := by
  induction l using List.reverseRecOn with
  | nil => simp at h
  | append_singleton l b ih =>
    rw [List.getLast?_concat] at h
    have hxb : x = b := by injection h with h'; exact h'.symm
    subst hxb
    rw [List.dropLast_concat]

theorem heappop_spec {T : Type} (lt : T → T → Bool) (heap : List T) (hne : heap ≠ []) :
    ∃ x h', heappop lt heap = some (x, h') ∧ x ::ₘ ms h' = ms heap := by
  cases hl : heap.getLast? with
  | none =>
    exfalso
    rw [List.getLast?_eq_none_iff] at hl
    exact hne hl
  | some lastelt =>
    have hdecomp := getLast?_eq_dropLast_append heap lastelt hl
    rw [heappop, hl]
    dsimp only
    by_cases hre : heap.dropLast.isEmpty
    · rw [if_pos hre]
      refine ⟨lastelt, [], rfl, ?_⟩
      have hnil : heap.dropLast = [] := by rwa [List.isEmpty_iff] at hre
      conv_rhs => rw [hdecomp, hnil]
      rfl
    · rw [if_neg hre]
      have hrne : heap.dropLast ≠ [] := fun hh => hre (List.isEmpty_iff.mpr hh)
      have hrlen : 0 < heap.dropLast.length := List.length_pos.mpr hrne
      refine ⟨heap.dropLast.getD 0 lastelt, _, rfl, ?_⟩
      rw [siftupLoop_ms lt 0 lastelt 0 (heap.dropLast.set 0 lastelt)
        (by rw [List.length_set]; omega), List.set_set]
      have h2 := multiset_set heap.dropLast 0 lastelt lastelt hrlen
      conv_rhs => rw [hdecomp]
      rw [ms_append, show ms [lastelt] = ({lastelt} : Multiset T) from rfl, ← h2]
      exact (ms_singleton_comm _ _).symm

theorem heappop_length {T : Type} (lt : T → T → Bool) (heap h' : List T) (x : T)
    (h : heappop lt heap = some (x, h')) : h'.length + 1 = heap.length := by
  cases hl : heap.getLast? with
  | none => rw [heappop, hl] at h; cases h
  | some lastelt =>
    have hdecomp := getLast?_eq_dropLast_append heap lastelt hl
    have hlen : heap.length = heap.dropLast.length + 1 := by
      conv_lhs => rw [hdecomp]
      rw [List.length_append, List.length_singleton]
    rw [heappop, hl] at h
    dsimp only at h
    by_cases hre : heap.dropLast.isEmpty
    · rw [if_pos hre] at h
      rw [Option.some.injEq, Prod.mk.injEq] at h
      obtain ⟨-, h2⟩ := h
      have hnil : heap.dropLast = [] := by rwa [List.isEmpty_iff] at hre
      rw [← h2]
      rw [hnil] at hlen
      simpa using hlen.symm
    · rw [if_neg hre] at h
      have hrne : heap.dropLast ≠ [] := fun hh => hre (List.isEmpty_iff.mpr hh)
      have hrlen : 0 < heap.dropLast.length := List.length_pos.mpr hrne
      rw [Option.some.injEq, Prod.mk.injEq] at h
      obtain ⟨-, h2⟩ := h
      have hms := siftupLoop_ms lt 0 lastelt 0 (heap.dropLast.set 0 lastelt)
        (by rw [List.length_set]; omega)
      have := ms_length hms
      rw [← h2, this, List.length_set, List.length_set]
      omega

theorem siftup_ms {T : Type} (lt : T → T → Bool) (heap : List T) (pos : Nat) :
    ms (siftup lt heap pos) = ms heap := by
  cases hg : heap[pos]? with
  | none => rw [siftup, hg]
  | some newitem =>
    have hpos : pos < heap.length := by
      by_contra hcon
      rw [List.getElem?_eq_none (by omega)] at hg
      cases hg
    rw [siftup, hg]
    rw [siftupLoop_ms lt pos newitem pos heap hpos]
    have hgd : heap.getD pos newitem = newitem := by
      rw [List.getD_eq_getElem?_getD, hg]
      rfl
    conv_lhs => rw [← hgd, set_getD_self]

theorem heapify_ms {T : Type} (lt : T → T → Bool) (heap : List T) :
    ms (heapify lt heap) = ms heap := by
  rw [heapify]
  exact Hamming.foldl_invariant (fun h i => siftup lt h i)
    (fun h : List T => ms h = ms heap)
    (fun b a hP => by
      show ms (siftup lt b a) = ms heap
      rw [siftup_ms]; exact hP)
    ((List.range (heap.length / 2)).reverse) heap rfl

theorem ms_mem {T : Type} {l1 l2 : List T} (h : ms l1 = ms l2) :
    ∀ x, x ∈ l1 ↔ x ∈ l2 := by
  intro x
  constructor <;> intro hx
  · have : x ∈ ms l1 := by simpa [ms] using hx
    rw [h] at this
    simpa [ms] using this
  · have : x ∈ ms l2 := by simpa [ms] using hx
    rw [← h] at this
    simpa [ms] using this

/-- The `while len(heap) > 1` merge loop of `build_huffman_tree`, followed by
the final `return heap[0]` (`none` models the `IndexError` on an empty heap),
with an explicit iteration budget: each iteration pops two nodes and pushes
one, shrinking the heap by exactly one, so a budget of `heap.length`
(supplied by `mergeLoop`) is never exhausted before `len(heap) > 1` fails. -/
def mergeFuel {α : Type} : Nat → List (HTree α) → Option (HTree α)
  | 0, heap => heap[0]?
  | fuel + 1, heap =>
    if 1 < heap.length then
      match heappop huffLt heap with
      | none => none
      | some (n1, h1) =>
        match heappop huffLt h1 with
        | none => none
        | some (n2, h2) =>
          mergeFuel fuel
            (heappush huffLt h2 (.node none (n1.freq + n2.freq) (some n1) (some n2)))
    else heap[0]?

/-- The merge loop of `build_huffman_tree`: pop the two lowest-frequency
nodes, push their merged parent, repeat while more than one node remains. -/
def mergeLoop {α : Type} (heap : List (HTree α)) : Option (HTree α) :=
  mergeFuel heap.length heap

/-- `build_huffman_tree`: one leaf per `(symbol, freq)` item in order; a
single-symbol source is wrapped in a left-only parent; otherwise `heapify`
then the merge loop. -/
def buildHuffmanTree {α : Type} (freqs : List (α × Nat)) : Option (HTree α) :=
  let heap := freqs.map (fun p => HTree.node (some p.1) p.2 none none)
  if heap.length = 1 then
    match heap with
    | [nd] => some (.node none nd.freq (some nd) none)
    | _ => none
  else
    mergeLoop (heapify huffLt heap)

/-- `build_codebook`'s `traverse`: a node with a symbol is a leaf and gets
`prefix or "0"`; otherwise recurse into `left` unconditionally (`none` models
the `AttributeError` when `left` is absent) and into `right` when present.
Bits: `false` is the character '0', `true` is '1'. -/
def codes {α : Type} : HTree α → List Bool → Option (List (α × List Bool))
  | .node (some s) _ _ _, pfx => some [(s, if pfx.isEmpty then [false] else pfx)]
  | .node none _ (some l) none, pfx =>
    match codes l (pfx ++ [false]) with
    | none => none
    | some cl => some cl
  | .node none _ (some l) (some rt), pfx =>
    match codes l (pfx ++ [false]) with
    | none => none
    | some cl =>
      match codes rt (pfx ++ [true]) with
      | none => none
      | some cr => some (cl ++ cr)
  | .node none _ none _, _ => none

/-- One `Counter` update: bump the count of an existing key (keeping its
position) or append a new key with count 1. -/
def counterStep {α : Type} [DecidableEq α] (acc : List (α × Nat)) (s : α) :
    List (α × Nat) :=
  if acc.any (fun p => p.1 == s) then
    acc.map (fun p => if p.1 == s then (p.1, p.2 + 1) else p)
  else acc ++ [(s, 1)]

/-- `collections.Counter(data)`: counts in first-occurrence key order. -/
def counter {α : Type} [DecidableEq α] (data : List α) : List (α × Nat) :=
  data.foldl counterStep []

/-- `train_codebook`: `ValueError` on empty data; the two `.error` fallbacks
model Python exceptions (`IndexError` from `heap[0]` on an empty heap,
`AttributeError` from traversing a missing left child) that are proved
unreachable for nonempty data. -/
def train_codebook {α : Type} [DecidableEq α] (data : List α) :
    Except String (List (α × List Bool)) :=
  let freqs := counter data
  if freqs.isEmpty then .error "No se puede entrenar Huffman con data vacia."
  else
    match buildHuffmanTree freqs with
    | none => .error "IndexError"
    | some root =>
      match codes root [] with
      | none => .error "AttributeError"
      | some cb => .ok cb

/-- Python dict lookup `d[k]` on a dict built by inserting the pairs in list
order: the last binding for a key wins. -/
def dictGet {α β : Type} [DecidableEq α] (d : List (α × β)) (k : α) : Option β :=
  (d.reverse.find? (fun p => p.1 == k)).map (fun p => p.2)

/-- `encode`: concatenate `codebook[sym]` over the data; a missing symbol is
the `ValueError` raised from the `KeyError`. -/
def encode {α : Type} [DecidableEq α] (data : List α)
    (codebook : List (α × List Bool)) : Except String (List Bool) :=
  match data.mapM (fun sym => dictGet codebook sym) with
  | some cs => .ok cs.flatten
  | none => .error "Simbolo no esta en el codebook"

/-- The scanning loop of `decode`: extend `current` with each bit, emit and
reset whenever `current` is a key of the reversed codebook. -/
def decodeGo {α : Type} [DecidableEq α] (rev : List (List Bool × α)) :
    List Bool → List Bool → List α → Except String (List α)
  | [], current, acc =>
    if current.isEmpty then .ok acc else .error "Error de canal, no es un codigo valido"
  | b :: rest, current, acc =>
    let current' := current ++ [b]
    match dictGet rev current' with
    | some sym => decodeGo rev rest [] (acc ++ [sym])
    | none => decodeGo rev rest current' acc

/-- `decode`: build `rev = {code: sym}` and scan. -/
def decode {α : Type} [DecidableEq α] (bits : List Bool)
    (codebook : List (α × List Bool)) : Except String (List α) :=
  decodeGo (codebook.map (fun p => (p.2, p.1))) bits [] []

/-- The node shapes the merge loop manipulates: input leaves and merged
internal nodes with two children. -/
inductive WFTree {α : Type} : HTree α → Prop where
  | leaf (s : α) (f : Nat) : WFTree (.node (some s) f none none)
  | internal (f : Nat) (l r : HTree α) : WFTree l → WFTree r →
      WFTree (.node none f (some l) (some r))

/-- The leaf symbols of a tree in `traverse` order (a node with a symbol is a
leaf, matching the `node.symbol is not None` test). -/
def leafList {α : Type} : HTree α → List α
  | .node (some s) _ _ _ => [s]
  | .node none _ (some l) (some r) => leafList l ++ leafList r
  | .node none _ (some l) none => leafList l
  | .node none _ none _ => []

theorem leafList_leaf {α : Type} (s : α) (f : Nat) (lo ro : Option (HTree α)) :
    leafList (.node (some s) f lo ro) = [s] := rfl

theorem leafList_internal {α : Type} (f : Nat) (l r : HTree α) :
    leafList (.node none f (some l) (some r)) = leafList l ++ leafList r := rfl

/-- Total leaf-symbol content of a heap of trees. -/
def leafSum {α : Type} (heap : List (HTree α)) : Multiset α :=
  (heap.map (fun t => (leafList t : Multiset α))).sum

theorem leafSum_nil {α : Type} : leafSum ([] : List (HTree α)) = 0 := rfl

theorem leafSum_cons {α : Type} (t : HTree α) (h : List (HTree α)) :
    leafSum (t :: h) = (leafList t : Multiset α) + leafSum h := by
  simp [leafSum]

theorem leafSum_eq_ms {α : Type} (h : List (HTree α)) :
    leafSum h = ((ms h).map (fun t => (leafList t : Multiset α))).sum := by
  simp [leafSum, ms]

theorem leafSum_congr {α : Type} {h1 h2 : List (HTree α)} (h : ms h1 = ms h2) :
    leafSum h1 = leafSum h2 := by
  rw [leafSum_eq_ms, leafSum_eq_ms, h]

theorem mergeFuel_spec {α : Type} :
    ∀ (fuel : Nat) (heap : List (HTree α)), heap.length ≤ fuel → 0 < heap.length →
      (∀ t ∈ heap, WFTree t) →
      ∃ t, mergeFuel fuel heap = some t ∧ WFTree t ∧
        (leafList t : Multiset α) = leafSum heap := by
  intro fuel
  induction fuel with
  | zero => intro heap hle hpos _; omega
  | succ fuel ih =>
    intro heap hle hpos hwf
    rw [mergeFuel]
    split
    next hlen =>
      obtain ⟨n1, h1, hp1, hm1⟩ := heappop_spec huffLt heap
        (by intro hh; rw [hh] at hlen; simp at hlen)
      have hlen1 : h1.length + 1 = heap.length := heappop_length _ _ _ _ hp1
      obtain ⟨n2, h2, hp2, hm2⟩ := heappop_spec huffLt h1
        (by intro hh; rw [hh] at hlen1; simp at hlen1; omega)
      have hlen2 : h2.length + 1 = h1.length := heappop_length _ _ _ _ hp2
      rw [hp1]
      dsimp only
      rw [hp2]
      dsimp only
      set merged := HTree.node (none : Option α) (n1.freq + n2.freq) (some n1) (some n2)
        with hmerged
      have hpushms := heappush_ms huffLt h2 merged
      have hpushlen := heappush_length huffLt h2 merged
      have hn1 : n1 ∈ heap := by
        have hx : n1 ∈ ms heap := by rw [← hm1]; exact Multiset.mem_cons_self _ _
        simpa [ms] using hx
      have hsub1 : ∀ x ∈ h1, x ∈ heap := by
        intro x hx
        have hx2 : x ∈ ms heap := by
          rw [← hm1]; exact Multiset.mem_cons_of_mem (by simpa [ms] using hx)
        simpa [ms] using hx2
      have hn2 : n2 ∈ heap := by
        apply hsub1
        have hx : n2 ∈ ms h1 := by rw [← hm2]; exact Multiset.mem_cons_self _ _
        simpa [ms] using hx
      have hsub2 : ∀ x ∈ h2, x ∈ heap := by
        intro x hx
        apply hsub1
        have hx2 : x ∈ ms h1 := by
          rw [← hm2]; exact Multiset.mem_cons_of_mem (by simpa [ms] using hx)
        simpa [ms] using hx2
      have hwfm : WFTree merged := WFTree.internal _ _ _ (hwf n1 hn1) (hwf n2 hn2)
      have hwf' : ∀ t ∈ heappush huffLt h2 merged, WFTree t := by
        intro t ht
        have hx : t ∈ (merged ::ₘ ms h2) := by rw [← hpushms]; simpa [ms] using ht
        rcases Multiset.mem_cons.mp hx with hcase | hcase
        · rw [hcase]; exact hwfm
        · exact hwf t (hsub2 t (by simpa [ms] using hcase))
      obtain ⟨t, hres, hwt, hsum⟩ := ih (heappush huffLt h2 merged)
        (by omega) (by omega) hwf'
      refine ⟨t, hres, hwt, ?_⟩
      rw [hsum]
      have e1 : leafSum (heappush huffLt h2 merged)
          = (leafList merged : Multiset α) + leafSum h2 := by
        rw [leafSum_eq_ms, hpushms, Multiset.map_cons, Multiset.sum_cons, ← leafSum_eq_ms]
      have e2 : leafSum heap = (leafList n1 : Multiset α) + leafSum h1 := by
        rw [leafSum_eq_ms, ← hm1, Multiset.map_cons, Multiset.sum_cons, ← leafSum_eq_ms]
      have e3 : leafSum h1 = (leafList n2 : Multiset α) + leafSum h2 := by
        rw [leafSum_eq_ms, ← hm2, Multiset.map_cons, Multiset.sum_cons, ← leafSum_eq_ms]
      have e4 : (leafList merged : Multiset α)
          = (leafList n1 : Multiset α) + (leafList n2 : Multiset α) := by
        rw [hmerged, leafList_internal]
        rfl
      rw [e1, e2, e3, e4, add_assoc]
    next hlen =>
      have hone : heap.length = 1 := by omega
      cases heap with
      | nil => simp at hone
      | cons t rest =>
        have hrest : rest = [] := by simpa using hone
        subst hrest
        refine ⟨t, rfl, hwf t (by simp), ?_⟩
        rw [leafSum_cons, leafSum_nil, add_zero]

theorem counterStep_any_iff {α : Type} [DecidableEq α] (acc : List (α × Nat)) (a : α) :
    acc.any (fun p => p.1 == a) = true ↔ a ∈ acc.map Prod.fst := by
  rw [List.any_eq_true]
  constructor
  · rintro ⟨p, hp, hpa⟩
    rw [beq_iff_eq] at hpa
    exact List.mem_map.mpr ⟨p, hp, hpa⟩
  · intro h
    obtain ⟨p, hp, hpa⟩ := List.mem_map.mp h
    exact ⟨p, hp, by rw [beq_iff_eq]; exact hpa⟩

theorem counterStep_keys {α : Type} [DecidableEq α] (acc : List (α × Nat)) (a : α) :
    (counterStep acc a).map Prod.fst
      = if a ∈ acc.map Prod.fst then acc.map Prod.fst else acc.map Prod.fst ++ [a] := by
  rw [counterStep]
  by_cases h : acc.any (fun p => p.1 == a) = true
  · rw [if_pos h, if_pos ((counterStep_any_iff acc a).mp h), List.map_map]
    apply List.map_congr_left
    intro p _
    by_cases hpa : p.1 = a <;> simp [Function.comp, hpa]
  · rw [if_neg h, if_neg (fun hmem => h ((counterStep_any_iff acc a).mpr hmem))]
    simp

theorem counter_foldl_keys {α : Type} [DecidableEq α] (data : List α) :
    ∀ acc : List (α × Nat), (acc.map Prod.fst).Nodup →
      ((data.foldl counterStep acc).map Prod.fst).Nodup ∧
      ∀ s, s ∈ (data.foldl counterStep acc).map Prod.fst ↔
        (s ∈ acc.map Prod.fst ∨ s ∈ data) := by
  induction data with
  | nil =>
    intro acc h
    exact ⟨h, fun s => by simp⟩
  | cons a rest ih =>
    intro acc hnd
    rw [List.foldl_cons]
    have hstep := counterStep_keys acc a
    by_cases hmem : a ∈ acc.map Prod.fst
    · rw [if_pos hmem] at hstep
      obtain ⟨h1, h2⟩ := ih (counterStep acc a) (by rw [hstep]; exact hnd)
      refine ⟨h1, fun s => ?_⟩
      rw [h2 s, hstep]
      constructor
      · rintro (h | h)
        · exact Or.inl h
        · exact Or.inr (by simp [h])
      · rintro (h | h)
        · exact Or.inl h
        · rcases List.mem_cons.mp h with h | h
          · subst h; exact Or.inl hmem
          · exact Or.inr h
    · rw [if_neg hmem] at hstep
      have hnd' : ((counterStep acc a).map Prod.fst).Nodup := by
        rw [hstep]
        rw [List.nodup_append]
        exact ⟨hnd, List.nodup_singleton a, by
          intro x hx hxa
          rw [List.mem_singleton] at hxa
          subst hxa
          exact hmem hx⟩
      obtain ⟨h1, h2⟩ := ih (counterStep acc a) hnd'
      refine ⟨h1, fun s => ?_⟩
      rw [h2 s, hstep]
      constructor
      · rintro (h | h)
        · rcases List.mem_append.mp h with h | h
          · exact Or.inl h
          · rw [List.mem_singleton] at h; subst h; exact Or.inr (by simp)
        · exact Or.inr (by simp [h])
      · rintro (h | h)
        · exact Or.inl (List.mem_append.mpr (Or.inl h))
        · rcases List.mem_cons.mp h with h | h
          · subst h; exact Or.inl (List.mem_append.mpr (Or.inr (by simp)))
          · exact Or.inr h

theorem counter_keys_nodup {α : Type} [DecidableEq α] (data : List α) :
    ((counter data).map Prod.fst).Nodup :=
  (counter_foldl_keys data [] (by simp)).1

theorem counter_keys_mem {α : Type} [DecidableEq α] (data : List α) (s : α) :
    s ∈ (counter data).map Prod.fst ↔ s ∈ data := by
  rw [counter]
  rw [(counter_foldl_keys data [] (by simp)).2 s]
  simp

theorem codes_leaf {α : Type} (s : α) (f : Nat) (lo ro : Option (HTree α))
    (pfx : List Bool) :
    codes (.node (some s) f lo ro) pfx
      = some [(s, if pfx.isEmpty then [false] else pfx)] := rfl

theorem codes_internal_eq {α : Type} (f : Nat) (l r : HTree α) (pfx : List Bool)
    (cl cr : List (α × List Bool))
    (hcl : codes l (pfx ++ [false]) = some cl)
    (hcr : codes r (pfx ++ [true]) = some cr) :
    codes (.node none f (some l) (some r)) pfx = some (cl ++ cr) := by
  rw [codes, hcl]
  dsimp only
  rw [hcr]

theorem codes_left_only_eq {α : Type} (f : Nat) (l : HTree α) (pfx : List Bool)
    (cl : List (α × List Bool))
    (hcl : codes l (pfx ++ [false]) = some cl) :
    codes (.node none f (some l) none) pfx = some cl := by
  rw [codes, hcl]

theorem pairwise_symm_forall {α : Type} {R : α → α → Prop}
    (hsym : ∀ a b, R a b → R b a) :
    ∀ l : List α, l.Pairwise R → ∀ p ∈ l, ∀ q ∈ l, p ≠ q → R p q := by
  intro l
  induction l with
  | nil => intro _ p hp; simp at hp
  | cons x xs ih =>
    intro hpw p hp q hq hpq
    rw [List.pairwise_cons] at hpw
    rcases List.mem_cons.mp hp with hp1 | hp1
    · rcases List.mem_cons.mp hq with hq1 | hq1
      · subst hp1; subst hq1; exact absurd rfl hpq
      · subst hp1; exact hpw.1 q hq1
    · rcases List.mem_cons.mp hq with hq1 | hq1
      · subst hq1; exact hsym _ _ (hpw.1 p hp1)
      · exact ih hpw.2 p hp1 q hq1 hpq

/-- `traverse` on the node shapes of the merge loop always succeeds, its
codebook keys list the leaves in tree order, every code extends the given
running code and is nonempty, and no produced code is a prefix of another. -/
theorem codes_spec {α : Type} (t : HTree α) (hwf : WFTree t) :
    ∀ pfx : List Bool,
      ∃ cb, codes t pfx = some cb ∧
        cb.map Prod.fst = leafList t ∧
        (∀ p ∈ cb, pfx <+: p.2 ∧ p.2 ≠ []) ∧
        cb.Pairwise (fun p q => ¬(p.2 <+: q.2) ∧ ¬(q.2 <+: p.2)) := by
  induction hwf with
  | leaf s f =>
    intro pfx
    refine ⟨[(s, if pfx.isEmpty then [false] else pfx)],
      codes_leaf s f none none pfx, rfl, ?_, ?_⟩
    · intro p hp
      rw [List.mem_singleton] at hp
      subst hp
      constructor
      · by_cases hpe : pfx.isEmpty
        · rw [if_pos hpe]
          have hnil : pfx = [] := by simpa using hpe
          subst hnil
          exact ⟨[false], rfl⟩
        · exact ⟨[], by rw [List.append_nil, if_neg hpe]⟩
      · by_cases hpe : pfx.isEmpty
        · rw [if_pos hpe]; simp
        · rw [if_neg hpe]
          simpa using hpe
    · simp
  | internal f l r hl hr ihl ihr =>
    intro pfx
    obtain ⟨cl, hcl, hclmap, hclprops, hclpw⟩ := ihl (pfx ++ [false])
    obtain ⟨cr, hcr, hcrmap, hcrprops, hcrpw⟩ := ihr (pfx ++ [true])
    refine ⟨cl ++ cr, ?_, ?_, ?_, ?_⟩
    · exact codes_internal_eq f l r pfx cl cr hcl hcr
    · rw [List.map_append, hclmap, hcrmap, leafList_internal]
    · intro p hp
      rcases List.mem_append.mp hp with hp | hp
      · obtain ⟨hpre, hpne⟩ := hclprops p hp
        exact ⟨List.IsPrefix.trans ⟨[false], rfl⟩ hpre, hpne⟩
      · obtain ⟨hpre, hpne⟩ := hcrprops p hp
        exact ⟨List.IsPrefix.trans ⟨[true], rfl⟩ hpre, hpne⟩
    · rw [List.pairwise_append]
      refine ⟨hclpw, hcrpw, ?_⟩
      intro p hp q hq
      obtain ⟨hp2, -⟩ := hclprops p hp
      obtain ⟨hq2, -⟩ := hcrprops q hq
      constructor
      · intro hpq
        have h0 : pfx ++ [false] <+: q.2 := hp2.trans hpq
        have h01 : pfx ++ [false] <+: pfx ++ [true] :=
          List.prefix_of_prefix_length_le h0 hq2 (by simp)
        have heq : pfx ++ [false] = pfx ++ [true] := h01.eq_of_length (by simp)
        have hft := List.append_inj_right heq rfl
        simp at hft
      · intro hqp
        have h1 : pfx ++ [true] <+: p.2 := hq2.trans hqp
        have h10 : pfx ++ [true] <+: pfx ++ [false] :=
          List.prefix_of_prefix_length_le h1 hp2 (by simp)
        have heq : pfx ++ [true] = pfx ++ [false] := h10.eq_of_length (by simp)
        have hft := List.append_inj_right heq rfl
        simp at hft

theorem find?_eq_some_of_unique {α : Type} (pred : α → Bool) (l : List α) (p : α)
    (hmem : p ∈ l) (hp : pred p = true) (huniq : ∀ q ∈ l, pred q = true → q = p) :
    l.find? pred = some p := by
  induction l with
  | nil => simp at hmem
  | cons x xs ih =>
    by_cases hx : pred x = true
    · rw [List.find?_cons_of_pos _ hx]
      rw [huniq x (by simp) hx]
    · rw [List.find?_cons_of_neg _ hx]
      rcases List.mem_cons.mp hmem with h | h
      · subst h; exact absurd hp hx
      · exact ih h (fun q hq hpq => huniq q (by simp [hq]) hpq)

theorem dictGet_eq_none {α β : Type} [DecidableEq α] (d : List (α × β)) (k : α)
    (h : ∀ p ∈ d, p.1 ≠ k) : dictGet d k = none := by
  rw [dictGet]
  have hf : d.reverse.find? (fun p => p.1 == k) = none := by
    rw [List.find?_eq_none]
    intro p hp
    simpa using h p (List.mem_reverse.mp hp)
  rw [hf]
  rfl

theorem dictGet_eq_some {α β : Type} [DecidableEq α] (d : List (α × β)) (p : α × β)
    (hmem : p ∈ d) (huniq : ∀ q ∈ d, q.1 = p.1 → q = p) :
    dictGet d p.1 = some p.2 := by
  rw [dictGet]
  rw [find?_eq_some_of_unique (fun q => q.1 == p.1) d.reverse p
    (List.mem_reverse.mpr hmem) (by simp)
    (fun q hq hpq => huniq q (List.mem_reverse.mp hq) (by simpa using hpq))]
  rfl

theorem dictGet_mem {α β : Type} [DecidableEq α] (d : List (α × β)) (k : α) (v : β)
    (h : dictGet d k = some v) : (k, v) ∈ d := by
  rw [dictGet] at h
  cases hf : d.reverse.find? (fun p => p.1 == k) with
  | none => rw [hf] at h; simp at h
  | some q =>
    rw [hf] at h
    have hq1 : q.1 = k := by simpa using List.find?_some hf
    have hqmem : q ∈ d := List.mem_reverse.mp (List.mem_of_find?_eq_some hf)
    have hv : q.2 = v := by simpa using h
    have hqkv : (k, v) = q := by
      cases q
      simp only at hq1 hv
      rw [hq1, hv]
    rw [hqkv]
    exact hqmem

theorem dictGet_isSome {α β : Type} [DecidableEq α] (d : List (α × β)) (k : α)
    (h : k ∈ d.map Prod.fst) : ∃ v, dictGet d k = some v := by
  obtain ⟨p, hp, hpk⟩ := List.mem_map.mp h
  rw [dictGet]
  cases hf : d.reverse.find? (fun q => q.1 == k) with
  | none =>
    rw [List.find?_eq_none] at hf
    exact absurd (by simpa using hpk) (by simpa using hf p (List.mem_reverse.mpr hp))
  | some q => exact ⟨q.2, rfl⟩

theorem dictGet_rev_some {α : Type} [DecidableEq α] (cb : List (α × List Bool))
    (p : α × List Bool) (hp : p ∈ cb)
    (huniq : ∀ q ∈ cb, q.2 = p.2 → q = p) :
    dictGet (cb.map (fun r => (r.2, r.1))) p.2 = some p.1 := by
  exact dictGet_eq_some (cb.map (fun r => (r.2, r.1))) (p.2, p.1)
    (List.mem_map.mpr ⟨p, hp, rfl⟩)
    (by
      intro q hq hq1
      obtain ⟨r, hr, hrq⟩ := List.mem_map.mp hq
      subst hrq
      rw [huniq r hr hq1])

theorem dictGet_rev_none {α : Type} [DecidableEq α] (cb : List (α × List Bool))
    (key : List Bool) (h : ∀ q ∈ cb, q.2 ≠ key) :
    dictGet (cb.map (fun r => (r.2, r.1))) key = none := by
  apply dictGet_eq_none
  intro q hq
  obtain ⟨r, hr, hrq⟩ := List.mem_map.mp hq
  subst hrq
  exact h r hr

/-- Feeding the scanning loop one complete codeword: the intermediate proper
nonempty extensions of the running code never hit a dict key (prefix
freedom), and the full codeword hits exactly its symbol. -/
theorem decodeGo_consume {α : Type} [DecidableEq α] (cb : List (α × List Bool))
    (hfree : ∀ p ∈ cb, ∀ q ∈ cb, p ≠ q → ¬(p.2 <+: q.2))
    (p : α × List Bool) (hp : p ∈ cb) :
    ∀ (c1 : List Bool), c1 ≠ [] → ∀ (c0 : List Bool), c0 ++ c1 = p.2 →
      ∀ (rest : List Bool) (acc : List α),
        decodeGo (cb.map (fun r => (r.2, r.1))) (c1 ++ rest) c0 acc
          = decodeGo (cb.map (fun r => (r.2, r.1))) rest [] (acc ++ [p.1]) := by
  have huniq : ∀ q ∈ cb, q.2 = p.2 → q = p := by
    intro q hq hq2
    by_contra hqp
    exact hfree q hq p hp hqp (by rw [hq2])
  intro c1
  induction c1 with
  | nil => intro h; exact absurd rfl h
  | cons b c1' ih =>
    intro _ c0 hcode rest acc
    rw [List.cons_append]
    simp only [decodeGo]
    cases c1' with
    | nil =>
      have hfull : c0 ++ [b] = p.2 := by simpa using hcode
      rw [hfull, dictGet_rev_some cb p hp huniq]
      rw [List.nil_append]
    | cons b' c1'' =>
      have hsplit : (c0 ++ [b]) ++ (b' :: c1'') = p.2 := by
        rw [List.append_assoc]
        simpa using hcode
      have hnone : dictGet (cb.map (fun r => (r.2, r.1))) (c0 ++ [b]) = none := by
        apply dictGet_rev_none
        intro q hq hq2
        have hqpfx : q.2 <+: p.2 := ⟨b' :: c1'', by rw [hq2]; exact hsplit⟩
        have hqnep : q ≠ p := by
          intro hqp
          have hlen := congrArg List.length hsplit
          rw [← hqp, hq2] at hlen
          simp [List.length_append] at hlen
        exact hfree q hq p hp hqnep hqpfx
      rw [hnone]
      exact ih (by simp) (c0 ++ [b]) hsplit rest acc

theorem mapM_dictGet_total {α : Type} [DecidableEq α] (cb : List (α × List Bool)) :
    ∀ data : List α, (∀ sym ∈ data, sym ∈ cb.map Prod.fst) →
      ∃ cs, data.mapM (fun sym => dictGet cb sym) = some cs := by
  intro data
  induction data with
  | nil => exact fun _ => ⟨[], rfl⟩
  | cons sym d ih =>
    intro hcov
    obtain ⟨v, hv⟩ := dictGet_isSome cb sym (hcov sym (by simp))
    obtain ⟨cs, hcs⟩ := ih (fun s hs => hcov s (by simp [hs]))
    refine ⟨v :: cs, ?_⟩
    simp only [List.mapM_cons]
    rw [hv, hcs]
    rfl

/-- The scanning loop inverts concatenation of complete codewords from a
prefix-free codebook with nonempty codes. -/
theorem decodeGo_encode_aux {α : Type} [DecidableEq α] (cb : List (α × List Bool))
    (hfree : ∀ p ∈ cb, ∀ q ∈ cb, p ≠ q → ¬(p.2 <+: q.2))
    (hcne : ∀ p ∈ cb, p.2 ≠ []) :
    ∀ (data : List α) (cs : List (List Bool)),
      data.mapM (fun sym => dictGet cb sym) = some cs →
      ∀ acc, decodeGo (cb.map (fun r => (r.2, r.1))) cs.flatten [] acc
        = .ok (acc ++ data) := by
  intro data
  induction data with
  | nil =>
    intro cs hcs acc
    simp only [List.mapM_nil, pure, Option.some.injEq] at hcs
    subst hcs
    simp [decodeGo]
  | cons sym data' ih =>
    intro cs hcs acc
    simp only [List.mapM_cons] at hcs
    cases hdg : dictGet cb sym with
    | none => rw [hdg] at hcs; simp at hcs
    | some c =>
      rw [hdg] at hcs
      cases hmm : data'.mapM (fun s => dictGet cb s) with
      | none => rw [hmm] at hcs; simp at hcs
      | some cs' =>
        rw [hmm] at hcs
        simp only [Option.some_bind, Option.bind_eq_bind] at hcs
        have hcseq : cs = c :: cs' := by
          cases hcs
          rfl
        subst hcseq
        rw [List.flatten_cons]
        have hpmem : (sym, c) ∈ cb := dictGet_mem cb sym c hdg
        have hc_ne : c ≠ [] := hcne (sym, c) hpmem
        rw [decodeGo_consume cb hfree (sym, c) hpmem c hc_ne [] (by simp)
          cs'.flatten acc]
        rw [ih cs' hmm (acc ++ [sym])]
        simp

/-- Encoding with a prefix-free, nonempty-code codebook covering the data
always succeeds, and the produced bit string decodes back to the data. -/
theorem encode_decode {α : Type} [DecidableEq α] (cb : List (α × List Bool))
    (hfree : ∀ p ∈ cb, ∀ q ∈ cb, p ≠ q → ¬(p.2 <+: q.2))
    (hcne : ∀ p ∈ cb, p.2 ≠ [])
    (data : List α) (hcov : ∀ sym ∈ data, sym ∈ cb.map Prod.fst) :
    ∃ bits, encode data cb = .ok bits ∧ decode bits cb = .ok data := by
  obtain ⟨cs, hcs⟩ := mapM_dictGet_total cb data hcov
  refine ⟨cs.flatten, ?_, ?_⟩
  · simp only [encode]
    rw [hcs]
  · simp only [decode]
    rw [decodeGo_encode_aux cb hfree hcne data cs hcs []]
    rfl

theorem leafSum_leaves {α : Type} (freqs : List (α × Nat)) :
    leafSum (freqs.map (fun p => HTree.node (some p.1) p.2 none none))
      = ms (freqs.map Prod.fst) := by
  induction freqs with
  | nil => rfl
  | cons p ps ih =>
    rw [List.map_cons, leafSum_cons, ih, List.map_cons, leafList_leaf]
    have : ms (p.1 :: ps.map Prod.fst) = ms ([p.1] ++ ps.map Prod.fst) := rfl
    rw [this, ms_append]
    rfl

/-- `build_huffman_tree` on at least two `(symbol, freq)` items: heapify then
merge down to a single well-formed tree whose leaves are exactly the input
symbols. -/
theorem buildHuffmanTree_spec {α : Type} (freqs : List (α × Nat))
    (hlen : 2 ≤ freqs.length) :
    ∃ t, buildHuffmanTree freqs = some t ∧ WFTree t ∧
      (leafList t : Multiset α) = ms (freqs.map Prod.fst) := by
  have hhlen : (freqs.map (fun p => HTree.node (some p.1) p.2 none none)).length
      = freqs.length := by simp
  have hne1 : ¬ (freqs.map (fun p => HTree.node (some p.1) p.2 none none)).length = 1 := by
    omega
  have hunfold : buildHuffmanTree freqs
      = mergeLoop (heapify huffLt
          (freqs.map (fun p => HTree.node (some p.1) p.2 none none))) := by
    simp only [buildHuffmanTree]
    rw [if_neg hne1]
  have hms := heapify_ms huffLt (freqs.map (fun p => HTree.node (some p.1) p.2 none none))
  have hlen2 := ms_length hms
  have hwfall : ∀ t ∈ heapify huffLt
      (freqs.map (fun p => HTree.node (some p.1) p.2 none none)), WFTree t := by
    intro t ht
    have ht2 : t ∈ freqs.map (fun p => HTree.node (some p.1) p.2 none none) :=
      (ms_mem hms t).mp ht
    obtain ⟨p, hpmem, hpt⟩ := List.mem_map.mp ht2
    rw [← hpt]
    exact WFTree.leaf p.1 p.2
  obtain ⟨t, hres, hwt, hsum⟩ := mergeFuel_spec
    (heapify huffLt (freqs.map (fun p => HTree.node (some p.1) p.2 none none))).length
    (heapify huffLt (freqs.map (fun p => HTree.node (some p.1) p.2 none none)))
    le_rfl (by omega) hwfall
  refine ⟨t, ?_, hwt, ?_⟩
  · rw [hunfold, mergeLoop]
    exact hres
  · rw [hsum, leafSum_congr hms, leafSum_leaves]

/-- `train_codebook` on data whose `Counter` holds a single key: the heap has
one leaf, which gets wrapped under a childless-right parent, and `traverse`
assigns the code "0". -/
theorem train_codebook_single {α : Type} [DecidableEq α] (data : List α) (s : α) (f : Nat)
    (hc : counter data = [(s, f)]) :
    train_codebook data = .ok [(s, [false])] := by
  simp only [train_codebook]
  rw [hc]
  rfl

theorem counterStep_same {α : Type} [DecidableEq α] (s : α) (c : Nat) :
    counterStep [(s, c)] s = [(s, c + 1)] := by
  rw [counterStep]
  rw [if_pos (by simp)]
  simp

theorem counter_const_aux {α : Type} [DecidableEq α] (s : α) :
    ∀ (data : List α), (∀ x ∈ data, x = s) →
      ∀ c : Nat, data.foldl counterStep [(s, c)] = [(s, c + data.length)] := by
  intro data
  induction data with
  | nil => intro _ c; simp
  | cons a d ih =>
    intro hall c
    have ha : a = s := hall a (by simp)
    subst ha
    rw [List.foldl_cons, counterStep_same,
      ih (fun x hx => hall x (List.mem_cons_of_mem _ hx)) (c + 1)]
    have hadd : c + 1 + d.length = c + (a :: d).length := by
      rw [List.length_cons]
      omega
    rw [hadd]

/-- `Counter` of a nonempty constant sequence is a single entry holding the
length. -/
theorem counter_const {α : Type} [DecidableEq α] (s : α) (data : List α)
    (hne : data ≠ []) (hall : ∀ x ∈ data, x = s) :
    counter data = [(s, data.length)] := by
  cases data with
  | nil => exact absurd rfl hne
  | cons a d =>
    have ha : a = s := hall a (by simp)
    subst ha
    rw [counter, List.foldl_cons]
    have h0 : counterStep ([] : List (α × Nat)) a = [(a, 1)] := by
      rw [counterStep]
      simp
    rw [h0, counter_const_aux a d (fun x hx => hall x (List.mem_cons_of_mem _ hx)) 1]
    rw [List.length_cons, Nat.add_comm 1 d.length]

/-- C5: for every non-empty symbol sequence, training a Huffman codebook on
it succeeds, encoding the sequence with that codebook succeeds, and decoding
the resulting bit string with the same codebook returns exactly the original
sequence (the trained codebook is prefix-free). -/
theorem huffman_fidelity {α : Type} [DecidableEq α] (data : List α) (hne : data ≠ []) :
    ∃ cb bits, train_codebook data = .ok cb ∧ encode data cb = .ok bits ∧
      decode bits cb = .ok data := by
  have hcne : counter data ≠ [] := by
    cases data with
    | nil => exact absurd rfl hne
    | cons a d =>
      intro hc
      have hmem := (counter_keys_mem (a :: d) a).mpr (by simp)
      rw [hc] at hmem
      simp at hmem
  rcases Nat.lt_or_ge (counter data).length 2 with hlt | hge
  · have hpos : 0 < (counter data).length := List.length_pos.mpr hcne
    have h1 : (counter data).length = 1 := by omega
    obtain ⟨sf, hsf⟩ := List.length_eq_one.mp h1
    obtain ⟨s, f⟩ := sf
    have htrain := train_codebook_single data s f hsf
    have hcov : ∀ sym ∈ data, sym ∈ ([(s, [false])] : List (α × List Bool)).map Prod.fst := by
      intro sym hsym
      have h2 : sym ∈ ((counter data).map Prod.fst) := (counter_keys_mem data sym).mpr hsym
      rw [hsf] at h2
      simpa using h2
    obtain ⟨bits, henc, hdec⟩ := encode_decode [(s, [false])]
      (by
        intro p hp q hq hpq
        rw [List.mem_singleton] at hp hq
        exact absurd (hp.trans hq.symm) hpq)
      (by
        intro p hp
        rw [List.mem_singleton] at hp
        subst hp
        simp)
      data hcov
    exact ⟨[(s, [false])], bits, htrain, henc, hdec⟩
  · obtain ⟨t, hbt, hwt, hll⟩ := buildHuffmanTree_spec (counter data) hge
    obtain ⟨cb, hcodes, hcbmap, hcbprops, hcbpw⟩ := codes_spec t hwt []
    have htrain : train_codebook data = .ok cb := by
      simp only [train_codebook]
      rw [if_neg (by
        intro hie
        exact hcne (by simpa using hie))]
      rw [hbt]
      dsimp only
      rw [hcodes]
    have hfree : ∀ p ∈ cb, ∀ q ∈ cb, p ≠ q → ¬(p.2 <+: q.2) := by
      intro p hp q hq hpq
      exact (pairwise_symm_forall (fun a b hab => ⟨hab.2, hab.1⟩) cb hcbpw p hp q hq hpq).1
    have hcne2 : ∀ p ∈ cb, p.2 ≠ [] := fun p hp => (hcbprops p hp).2
    have hcov : ∀ sym ∈ data, sym ∈ cb.map Prod.fst := by
      intro sym hsym
      rw [hcbmap]
      have h1 : sym ∈ ((counter data).map Prod.fst) := (counter_keys_mem data sym).mpr hsym
      have h2 : sym ∈ (leafList t : Multiset α) := by
        rw [hll]
        simpa [ms] using h1
      simpa using h2
    obtain ⟨bits, henc, hdec⟩ := encode_decode cb hfree hcne2 data hcov
    exact ⟨cb, bits, htrain, henc, hdec⟩

theorem huffman_fidelity_witness :
    ([5, 5, 5, 2, 2, 9] : List Nat) ≠ [] ∧
      ∃ cb bits, train_codebook ([5, 5, 5, 2, 2, 9] : List Nat) = .ok cb ∧
        encode ([5, 5, 5, 2, 2, 9] : List Nat) cb = .ok bits ∧
        decode bits cb = .ok ([5, 5, 5, 2, 2, 9] : List Nat) :=
  ⟨by decide, huffman_fidelity ([5, 5, 5, 2, 2, 9] : List Nat) (by decide)⟩

/-- C8: training on a nonempty sequence with exactly one distinct symbol `s`
yields the codebook mapping `s` to the single-bit code "0" (here `[false]`,
not the empty string), and encode then decode with that codebook reproduces
the sequence exactly. -/
theorem huffman_single_symbol {α : Type} [DecidableEq α] (s : α) (data : List α)
    (hne : data ≠ []) (hall : ∀ x ∈ data, x = s) :
    train_codebook data = .ok [(s, [false])] ∧
      ∃ bits, encode data [(s, [false])] = .ok bits ∧
        decode bits [(s, [false])] = .ok data := by
  have hc : counter data = [(s, data.length)] := counter_const s data hne hall
  refine ⟨train_codebook_single data s data.length hc, ?_⟩
  exact encode_decode [(s, [false])]
    (by
      intro p hp q hq hpq
      rw [List.mem_singleton] at hp hq
      exact absurd (hp.trans hq.symm) hpq)
    (by
      intro p hp
      rw [List.mem_singleton] at hp
      subst hp
      simp)
    data
    (by
      intro sym hsym
      have hs := hall sym hsym
      subst hs
      simp)

theorem huffman_single_symbol_witness :
    (([7, 7, 7] : List Nat) ≠ [] ∧ ∀ x ∈ ([7, 7, 7] : List Nat), x = 7) ∧
      (train_codebook ([7, 7, 7] : List Nat) = .ok [(7, [false])] ∧
        ∃ bits, encode ([7, 7, 7] : List Nat) [(7, [false])] = .ok bits ∧
          decode bits [(7, [false])] = .ok ([7, 7, 7] : List Nat)) :=
  ⟨⟨by decide, by decide⟩, huffman_single_symbol 7 [7, 7, 7] (by decide) (by decide)⟩

example : train_codebook ([5, 5, 5, 2, 2, 9] : List Nat)
    = .ok [(5, [false]), (9, [true, false]), (2, [true, true])] := by decide

example :
    (match train_codebook ([5, 5, 5, 2, 2, 9] : List Nat) with
      | .ok cb => (match encode [5, 5, 5, 2, 2, 9] cb with
        | .ok bits => decode bits cb
        | .error e => .error e)
      | .error e => .error e)
      = .ok [5, 5, 5, 2, 2, 9] := by decide

end Huffman

end CodecCore
